import Mathlib

/-!
The path parser and the path evaluator of json-query.

A shallow embedding of `include/json_query/json_query.hpp` (namespace
`json_query_internal`) and a verification of its path parser, of the tuple of
lookup arguments built from the parse, and of `query_json`.

Conventions of the embedding

* `std::string_view` is a `List Char`; `text.substr(pos, len)` is `substr text pos len`.
* `size_t` is a natural number reduced modulo `SIZE_MOD = 2 ^ 64` wherever the
  source does arithmetic that can wrap (`accum * 10 + digit`).  Offsets into the
  text (`i`, `start`, `count`) never exceed the text length plus one and are
  left unreduced.
* `throw std::logic_error(..)` is `Except.error` with the fault that was raised.
  An access `result[count]` past the end of the `std::array` is the fault
  `arrayBoundsError`: every use of `parse_json_paths` in the repository is a
  constant evaluation, where such an access is rejected.
* The tuple that `parse_json` returns is a list of `PathArg`, an element being a
  `std::string_view` or a `size_t` by its static type.
* The tree value `boost::json::value` is a library type, not part of the repository;
  it is modelled from the capability interface of the specification (`Value`), and a
  mutable reference into a tree is a `Ref`.
-/

namespace JsonQuery

deriving instance DecidableEq for Except

/-- The ways an evaluation of the parser can stop without a value. -/
inductive Fault where
  /-- The `throw std::logic_error("Invalid integer literal")` of `to_digit`. -/
  | integerLiteralError
  /-- The `throw std::logic_error("Invalid syntax")` of `parse_json_paths`. -/
  | syntaxError
  /-- An access `result[count]` with `count` not below `result.size()`. -/
  | arrayBoundsError
  deriving DecidableEq, Repr

/-- The type `using KeyOrIndex = std::variant<std::string_view, size_t>`. -/
inductive KeyOrIndex where
  | key (text : List Char)
  | index (n : Nat)
  deriving DecidableEq, Repr

/-- A value-initialised `KeyOrIndex` holds the first alternative, an empty
`std::string_view`. -/
def KeyOrIndex.default : KeyOrIndex := KeyOrIndex.key []

/-- The number of values of `size_t`. -/
def SIZE_MOD : Nat := 2 ^ 64

/-- The call `std::string_view::substr(pos, len)` for `pos` within the text. -/
def substr (text : List Char) (pos len : Nat) : List Char :=
  (text.drop pos).take len

/-- The function `to_digit`: throws on a character outside `'0'..'9'`, else `c - '0'`. -/
def to_digit (c : Char) : Except Fault Nat :=
  if c < '0' ∨ '9' < c then
    Except.error Fault.integerLiteralError
  else
    Except.ok (c.toNat - '0'.toNat)

/-- The function `str_to_index_impl`: the recursion over the characters of `str`, the
accumulator being a `size_t`. -/
def str_to_index_impl : List Char → Nat → Except Fault Nat
  | [], accum => Except.ok accum
  | c :: rest, accum =>
    match to_digit c with
    | Except.error e => Except.error e
    | Except.ok d => str_to_index_impl rest ((accum * 10 + d) % SIZE_MOD)

/-- The function `str_to_index`: `str_to_index_impl` from accumulator 0. -/
def str_to_index (str : List Char) : Except Fault Nat :=
  str_to_index_impl str 0

/-- The function `count_json_paths`: one more than the number of `'.'` and `'['`. -/
def count_json_paths (text : List Char) : Nat :=
  1 + text.countP (fun c => c == '.' || c == '[')

/-- The local variables of `parse_json_paths` that the scan updates. -/
structure ScanState where
  /-- The array `std::array<KeyOrIndex, size> result`. -/
  result : List KeyOrIndex
  count : Nat
  start : Nat
  is_array : Bool
  deriving DecidableEq, Repr

/-- The statement `result[count++] = v`. -/
def store (st : ScanState) (v : KeyOrIndex) : Except Fault ScanState :=
  if st.count < st.result.length then
    Except.ok { st with result := st.result.set st.count v, count := st.count + 1 }
  else
    Except.error Fault.arrayBoundsError

/-- The statement `if (start < i) { result[count++] = text.substr(start, i - start); }`. -/
def flush_key (text : List Char) (i : Nat) (st : ScanState) : Except Fault ScanState :=
  if st.start < i then
    store st (KeyOrIndex.key (substr text st.start (i - st.start)))
  else
    Except.ok st

/-- One iteration of the `for` loop of `parse_json_paths`: the `switch` on
`c = text[i]`. -/
def scan_step (text : List Char) (i : Nat) (c : Char) (st : ScanState) :
    Except Fault ScanState :=
  if c = '.' then
    if st.is_array then
      Except.error Fault.syntaxError
    else
      match flush_key text i st with
      | Except.error e => Except.error e
      | Except.ok st1 => Except.ok { st1 with start := i + 1 }
  else if c = '[' then
    if st.is_array then
      Except.error Fault.syntaxError
    else
      match flush_key text i { st with is_array := true } with
      | Except.error e => Except.error e
      | Except.ok st1 => Except.ok { st1 with start := i + 1 }
  else if c = ']' then
    if !st.is_array then
      Except.error Fault.syntaxError
    else
      match str_to_index (substr text st.start (i - st.start)) with
      | Except.error e => Except.error e
      | Except.ok n =>
        match store { st with is_array := false } (KeyOrIndex.index n) with
        | Except.error e => Except.error e
        | Except.ok st1 => Except.ok { st1 with start := i + 1 }
  else
    Except.ok st

/-- The `for (size_t i = 0; i < text.size(); ++i)` loop, entered at index `i`
with `rest` the characters `text[i], text[i+1], ...` still to be visited. -/
def scan_loop (text : List Char) : List Char → Nat → ScanState → Except Fault ScanState
  | [], _, st => Except.ok st
  | c :: rest, i, st =>
    match scan_step text i c st with
    | Except.error e => Except.error e
    | Except.ok st1 => scan_loop text rest (i + 1) st1

/-- The locals of `parse_json_paths` before the loop. -/
def scan_init (text : List Char) : ScanState :=
  { result := List.replicate (count_json_paths text) KeyOrIndex.default
    count := 0
    start := 0
    is_array := false }

/-- The body of `parse_json_paths` up to and including the trailing
`if (start < text.size()) { result[count++] = text.substr(start); }`. -/
def scan_text (text : List Char) : Except Fault ScanState :=
  match scan_loop text text 0 (scan_init text) with
  | Except.error e => Except.error e
  | Except.ok st =>
    if st.start < text.length then
      store st (KeyOrIndex.key (text.drop st.start))
    else
      Except.ok st

/-- The function `parse_json_paths`: the scan, then the check `count != result.size()`. -/
def parse_json_paths (text : List Char) : Except Fault (List KeyOrIndex) :=
  match scan_text text with
  | Except.error e => Except.error e
  | Except.ok st =>
    if st.count ≠ st.result.length then
      Except.error Fault.syntaxError
    else
      Except.ok st.result


/-! ## The scan seen through what it has emitted

`View` abstracts a `ScanState` at loop index `i`: `pending` is `text[start..i)`,
`out` is `result[0..count)`.  `view_loop` is the loop on views; `scan_loop_view`
below shows that it is the loop of the source. -/

/-- The abstraction of a `ScanState`. -/
structure View where
  pending : List Char
  is_array : Bool
  out : List KeyOrIndex
  deriving DecidableEq, Repr

/-- The statement `result[count++] = v` on the emitted segments, for an array of `size` slots. -/
def emit (size : Nat) (out : List KeyOrIndex) (v : KeyOrIndex) :
    Except Fault (List KeyOrIndex) :=
  if out.length < size then Except.ok (out ++ [v]) else Except.error Fault.arrayBoundsError

/-- The flush of the pending characters as a key, when there are any. -/
def view_flush (size : Nat) (pending : List Char) (out : List KeyOrIndex) :
    Except Fault (List KeyOrIndex) :=
  if pending = [] then Except.ok out else emit size out (KeyOrIndex.key pending)

/-- One loop iteration on views. -/
def view_step (size : Nat) (c : Char) (v : View) : Except Fault View :=
  if c = '.' then
    if v.is_array then Except.error Fault.syntaxError
    else
      match view_flush size v.pending v.out with
      | Except.error e => Except.error e
      | Except.ok out => Except.ok { pending := [], is_array := false, out := out }
  else if c = '[' then
    if v.is_array then Except.error Fault.syntaxError
    else
      match view_flush size v.pending v.out with
      | Except.error e => Except.error e
      | Except.ok out => Except.ok { pending := [], is_array := true, out := out }
  else if c = ']' then
    if !v.is_array then Except.error Fault.syntaxError
    else
      match str_to_index v.pending with
      | Except.error e => Except.error e
      | Except.ok n =>
        match emit size v.out (KeyOrIndex.index n) with
        | Except.error e => Except.error e
        | Except.ok out => Except.ok { pending := [], is_array := false, out := out }
  else
    Except.ok { v with pending := v.pending ++ [c] }

/-- The loop on views. -/
def view_loop (size : Nat) : List Char → View → Except Fault View
  | [], v => Except.ok v
  | c :: rest, v =>
    match view_step size c v with
    | Except.error e => Except.error e
    | Except.ok v1 => view_loop size rest v1

/-- The view before the loop. -/
def view_init : View := { pending := [], is_array := false, out := [] }

/-- The loop and the trailing flush, on views. -/
def view_text (size : Nat) (text : List Char) : Except Fault (List KeyOrIndex) :=
  match view_loop size text view_init with
  | Except.error e => Except.error e
  | Except.ok v => view_flush size v.pending v.out

/-- The whole of `parse_json_paths`, on views. -/
def view_parse (text : List Char) : Except Fault (List KeyOrIndex) :=
  match view_text (count_json_paths text) text with
  | Except.error e => Except.error e
  | Except.ok out =>
    if out.length ≠ count_json_paths text then Except.error Fault.syntaxError
    else Except.ok out

/-- The `ScanState` that a view stands for, at loop index `i`, for an array of
`size` slots. -/
def View.state (size i : Nat) (v : View) : ScanState :=
  { result := v.out ++ List.replicate (size - v.out.length) KeyOrIndex.default
    count := v.out.length
    start := i - v.pending.length
    is_array := v.is_array }

/-- The segments emitted once the pending text is flushed. -/
def View.flushed (v : View) : List KeyOrIndex :=
  if v.pending = [] then v.out else v.out ++ [KeyOrIndex.key v.pending]

/-! ## The vocabulary of the specification -/

/-- A decimal digit, `'0'..'9'`. -/
def is_decimal_digit (c : Char) : Bool :=
  decide ('0' ≤ c) && decide (c ≤ '9')

/-- One of the three characters the scan treats as a delimiter. -/
def is_delimiter (c : Char) : Bool :=
  c == '.' || c == '[' || c == ']'

/-- The base-10 numeric value of a digit string in positional notation: the
digit at distance `k` from the right end weighs `10 ^ k`. -/
def decimal_value : List Char → Nat
  | [] => 0
  | c :: rest => (c.toNat - '0'.toNat) * 10 ^ rest.length + decimal_value rest

/-- The grammar's `segment`: one or more characters excluding `'.'`, `'['`, `']'`. -/
def is_segment (s : List Char) : Prop :=
  s ≠ [] ∧ ∀ c ∈ s, is_delimiter c = false

/-- The grammar's `digits`: one or more decimal digits. -/
def is_digits (d : List Char) : Prop :=
  d ≠ [] ∧ ∀ c ∈ d, is_decimal_digit c = true

/-- One repetition of the grammar's starred group: `'.' segment` or `'[' digits ']'`. -/
inductive PathItem where
  | dot (segment : List Char)
  | bracket (digits : List Char)
  deriving DecidableEq, Repr

/-- The item is well formed by the grammar. -/
def PathItem.wf : PathItem → Prop
  | PathItem.dot s => is_segment s
  | PathItem.bracket d => is_digits d

/-- The digits of the item, when it is bracketed, denote a value of `size_t`. -/
def PathItem.in_range : PathItem → Prop
  | PathItem.dot _ => True
  | PathItem.bracket d => decimal_value d < SIZE_MOD

/-- The text of an item. -/
def PathItem.text : PathItem → List Char
  | PathItem.dot s => '.' :: s
  | PathItem.bracket d => '[' :: (d ++ [']'])

/-- The segment an item stands for. -/
def PathItem.segment : PathItem → KeyOrIndex
  | PathItem.dot s => KeyOrIndex.key s
  | PathItem.bracket d => KeyOrIndex.index (decimal_value d)

/-- The text of a run of items. -/
def items_text : List PathItem → List Char
  | [] => []
  | it :: rest => it.text ++ items_text rest

/-- The text is derivable from `path := segment ('.' segment | '[' digits ']')*`. -/
def Derivable (text : List Char) : Prop :=
  ∃ (s0 : List Char) (items : List PathItem),
    is_segment s0 ∧ (∀ it ∈ items, it.wf) ∧ text = s0 ++ items_text items

/-- Whether a left-to-right reading of `pre` ends inside an open bracket: the
last bracket character read is `'['`. -/
def bracket_open (pre : List Char) : Bool :=
  pre.foldl (fun b c => if c = '[' then true else if c = ']' then false else b) false

/-- The evaluation stopped with a fault. -/
def Fails {α : Type} (r : Except Fault α) : Prop :=
  ∃ e, r = Except.error e

/-- The runs of characters that a left-to-right reading of a text marks off, in the
words of the specification's algorithm: at a `'.'` or a `'['` the characters read
since the last delimiter, when there are any, are a run that no bracket closes; at a
`']'` they are a run closed by a bracket, empty or not; at the end of the text, when
there are any, a last run that no bracket closes.  `run` holds the characters read
since the last delimiter; each run comes with whether a `']'` closed it. -/
def segment_runs : List Char → List Char → List (Bool × List Char)
  | run, [] => if run = [] then [] else [(false, run)]
  | run, c :: rest =>
    if c = '.' ∨ c = '[' then
      (if run = [] then [] else [(false, run)]) ++ segment_runs [] rest
    else if c = ']' then
      (true, run) :: segment_runs [] rest
    else
      segment_runs (run ++ [c]) rest

/-- The segment a run stands for: an `Index` of the run's `size_t` value when a `']'`
closed it, a `Key` of its text otherwise. -/
def run_segment : Bool × List Char → KeyOrIndex
  | (true, d) => KeyOrIndex.index (decimal_value d % SIZE_MOD)
  | (false, s) => KeyOrIndex.key s

/-- The shape of a text that the checks of `parse_json_paths` let through: every
`']'` is immediately preceded by a run of decimal digits, possibly empty, that is
itself immediately preceded by a `'['`; no `'.'` or `'['` stands inside an open
bracket; and the number of runs a left-to-right reading marks off is one more than
the number of `'.'` and `'['`. -/
def AcceptedShape (text : List Char) : Prop :=
  (∀ pre post, text = pre ++ ']' :: post →
    ∃ a d, pre = a ++ '[' :: d ∧ ∀ c ∈ d, is_decimal_digit c = true) ∧
  (∀ pre c post, text = pre ++ c :: post → c = '.' ∨ c = '[' → bracket_open pre = false) ∧
  (segment_runs [] text).length = 1 + text.count '.' + text.count '['

/-- The run stands between two delimiters and no bracket closes it: before it the
text starts or a delimiter stands, after it the text ends or a `'.'` or a `'['`
stands. -/
def unbracketed_at (pre post : List Char) : Prop :=
  (pre = [] ∨ ∃ p c, pre = p ++ [c] ∧ is_delimiter c = true) ∧
  (post = [] ∨ ∃ c q, post = c :: q ∧ (c = '.' ∨ c = '['))

/-! ## From the segment array to the tuple of lookup arguments -/

/-- The enumeration `enum class PathType`, with the enumerators as the source
spells them. -/
inductive PathType where
  | ObjetKey
  | ArrayIndex
  deriving DecidableEq, Repr

/-- The test `std::holds_alternative<size_t>(path)`. -/
def holds_index : KeyOrIndex → Bool
  | KeyOrIndex.key _ => false
  | KeyOrIndex.index _ => true

/-- The function `get_path_types`: a value-initialised `std::array<PathType, N>`
(every slot the first enumerator) whose slot `i` is assigned for `i = 0, .., N - 1`. -/
def get_path_types (paths : List KeyOrIndex) : List PathType :=
  (List.range paths.length).foldl
    (fun result i =>
      result.set i
        (if holds_index (paths.getD i KeyOrIndex.default) then PathType.ArrayIndex
         else PathType.ObjetKey))
    (List.replicate paths.length PathType.ObjetKey)

/-- An element of the tuple that `parse_json` returns: a `std::string_view` or a
`size_t`, told apart by its static type. -/
inductive PathArg where
  | text (key : List Char)
  | pos (n : Nat)
  deriving DecidableEq, Repr

/-- The ways the constant evaluation of `parse_json` can be rejected. -/
inductive ParseFault where
  /-- A fault of `parse_json_paths`. -/
  | scan (e : Fault)
  /-- A `std::get` on a variant that holds the other alternative. -/
  | badVariantAccess
  deriving DecidableEq, Repr

/-- The function template `convert<path_type>`: `std::get<std::string_view>` for
`ObjetKey`, `std::get<size_t>` otherwise. -/
def convert (path_type : PathType) (path : KeyOrIndex) : Except ParseFault PathArg :=
  match path_type, path with
  | PathType.ObjetKey, KeyOrIndex.key s => Except.ok (PathArg.text s)
  | PathType.ObjetKey, KeyOrIndex.index _ => Except.error ParseFault.badVariantAccess
  | PathType.ArrayIndex, KeyOrIndex.index n => Except.ok (PathArg.pos n)
  | PathType.ArrayIndex, KeyOrIndex.key _ => Except.error ParseFault.badVariantAccess

/-- The pack expansion `std::make_tuple(convert<path_types[Is]>(paths[Is])...)` over
the indices `Is`. -/
def make_tuple (path_types : List PathType) (paths : List KeyOrIndex) :
    List Nat → Except ParseFault (List PathArg)
  | [] => Except.ok []
  | i :: Is =>
    match convert (path_types.getD i PathType.ObjetKey) (paths.getD i KeyOrIndex.default) with
    | Except.error e => Except.error e
    | Except.ok x =>
      match make_tuple path_types paths Is with
      | Except.error e => Except.error e
      | Except.ok xs => Except.ok (x :: xs)

/-- The function `parse_json_impl` for the index sequence `Is`. -/
def parse_json_impl (text : List Char) (Is : List Nat) : Except ParseFault (List PathArg) :=
  match parse_json_paths text with
  | Except.error e => Except.error (ParseFault.scan e)
  | Except.ok paths => make_tuple (get_path_types paths) paths Is

/-- The function `parse_json`: `parse_json_impl` on
`std::make_index_sequence<count_json_paths(text)>`. -/
def parse_json (text : List Char) : Except ParseFault (List PathArg) :=
  parse_json_impl text (List.range (count_json_paths text))

/-- The lookup argument a segment stands for. -/
def KeyOrIndex.arg : KeyOrIndex → PathArg
  | KeyOrIndex.key s => PathArg.text s
  | KeyOrIndex.index n => PathArg.pos n

/-- The path type of a segment, as the claim about `get_path_types` words it. -/
def KeyOrIndex.path_type : KeyOrIndex → PathType
  | KeyOrIndex.key _ => PathType.ObjetKey
  | KeyOrIndex.index _ => PathType.ArrayIndex

/-- The number of `Index` segments of a sequence. -/
def index_count (r : List KeyOrIndex) : Nat :=
  r.countP holds_index

/-! ## The tree value and the evaluator

`query_json` consumes the tree value, `boost::json::value`, through `at` only, and
the typed form of the `QUERY_JSON` macro through `as_<type>()`.  The library is not
part of the repository: the value and these accessors are modelled from the
specification's capability interface.  A `boost::json::value&` into the caller's tree
is a `Ref`: the value it refers to, and the tree that an assignment through it
leaves behind. -/

/-- Modelled from the spec: the tree value (the external `boost::json::value`), a
dynamically typed node that is an object, an array or a scalar.  The payload of a
`double` is kept as a bit pattern; nothing computes on it. -/
inductive Value where
  | null
  | bool (b : Bool)
  | int64 (i : Int)
  | uint64 (n : Nat)
  | double (bits : Nat)
  | string (s : List Char)
  | array (elements : List Value)
  | object (members : List (List Char × Value))

/-- The failures of the evaluation, by the taxonomy of the specification. -/
inductive EvalFault where
  | keyNotFound
  | indexOutOfRange
  | typeMismatch
  deriving DecidableEq, Repr

/-- Modelled from the spec: the member of an object with the given key, if there is
one (the first, should the list repeat a key; the external object type keeps keys
unique). -/
def find_member (key : List Char) : List (List Char × Value) → Option Value
  | [] => none
  | (k, child) :: rest => if k = key then some child else find_member key rest

/-- Modelled from the spec: the members of an object after an assignment to the
member found by `find_member`. -/
def set_member (key : List Char) (w : Value) :
    List (List Char × Value) → List (List Char × Value)
  | [] => []
  | (k, child) :: rest =>
    if k = key then (k, w) :: rest else (k, child) :: set_member key w rest

/-- Modelled from the spec: lookup-by-key (the external `value::at(string_view)`),
which fails if the node is not object-shaped or the key is absent. -/
def Value.at_key (v : Value) (key : List Char) : Except EvalFault Value :=
  match v with
  | Value.object members =>
    match find_member key members with
    | some child => Except.ok child
    | none => Except.error EvalFault.keyNotFound
  | _ => Except.error EvalFault.keyNotFound

/-- Modelled from the spec: lookup-by-index (the external `value::at(std::size_t)`),
which fails if the node is not array-shaped or the index is out of bounds. -/
def Value.at_index (v : Value) (n : Nat) : Except EvalFault Value :=
  match v with
  | Value.array elements =>
    match elements[n]? with
    | some child => Except.ok child
    | none => Except.error EvalFault.indexOutOfRange
  | _ => Except.error EvalFault.indexOutOfRange

/-- The call `ref->at(x)` of `query_json`: the overload is chosen by the static type
of the tuple element `x`. -/
def Value.at_arg (v : Value) (x : PathArg) : Except EvalFault Value :=
  match x with
  | PathArg.text key => v.at_key key
  | PathArg.pos n => v.at_index n

/-- Modelled from the spec: the node after an assignment of `w` through the reference
that `at(x)` returned. -/
def Value.set_arg (v : Value) (x : PathArg) (w : Value) : Value :=
  match x, v with
  | PathArg.text key, Value.object members => Value.object (set_member key w members)
  | PathArg.pos n, Value.array elements => Value.array (elements.set n w)
  | _, _ => v

/-- The tree `root` with the node that the lookups `keys` lead to replaced by `w`; the
tree itself when a lookup on the way fails. -/
def Value.put : Value → List PathArg → Value → Value
  | _, [], w => w
  | root, x :: keys, w =>
    match root.at_arg x with
    | Except.error _ => root
    | Except.ok child => root.set_arg x (Value.put child keys w)

/-- A mutable reference `boost::json::value&` into the caller's tree. -/
structure Ref where
  /-- The value referred to. -/
  target : Value
  /-- The caller's tree after the assignment `*ref = w`. -/
  assign : Value → Value

/-- The reference `&json` to the whole tree. -/
def Ref.root (json : Value) : Ref :=
  { target := json, assign := fun w => w }

/-- The call `ref->at(x)` on a mutable reference: the reference to the child. -/
def Ref.at_arg (ref : Ref) (x : PathArg) : Except EvalFault Ref :=
  match ref.target.at_arg x with
  | Except.error e => Except.error e
  | Except.ok child =>
    Except.ok { target := child, assign := fun w => ref.assign (ref.target.set_arg x w) }

/-- The loop `boost::hana::for_each(keys, [&](auto x) { ref = &(ref->at(x)); })`,
for references of type `R` with the lookup `at_`. -/
def for_each_at {R E : Type} (at_ : R → PathArg → Except E R) :
    R → List PathArg → Except E R
  | ref, [] => Except.ok ref
  | ref, x :: keys =>
    match at_ ref x with
    | Except.error e => Except.error e
    | Except.ok ref1 => for_each_at at_ ref1 keys

/-- The failures of `query_json`: a path literal rejected in the constant evaluation
of `parse_json`, or a failed lookup. -/
inductive QueryFault where
  | path (e : ParseFault)
  | lookup (e : EvalFault)
  deriving DecidableEq, Repr

/-- The overload `query_json(boost::json::value&, fn)`. -/
def query_json (json : Value) (text : List Char) : Except QueryFault Ref :=
  match parse_json text with
  | Except.error e => Except.error (QueryFault.path e)
  | Except.ok keys =>
    match for_each_at Ref.at_arg (Ref.root json) keys with
    | Except.error e => Except.error (QueryFault.lookup e)
    | Except.ok ref => Except.ok ref

/-- The overload `query_json(const boost::json::value&, fn)`. -/
def query_json_const (json : Value) (text : List Char) : Except QueryFault Value :=
  match parse_json text with
  | Except.error e => Except.error (QueryFault.path e)
  | Except.ok keys =>
    match for_each_at Value.at_arg json keys with
    | Except.error e => Except.error (QueryFault.lookup e)
    | Except.ok node => Except.ok node

/-- The scalar types a typed query can request. -/
inductive ScalarType where
  | bool
  | int64
  | uint64
  | double
  | string
  deriving DecidableEq, Repr

/-- The payload of a scalar of the given type. -/
def ScalarType.payload : ScalarType → Type
  | ScalarType.bool => Bool
  | ScalarType.int64 => Int
  | ScalarType.uint64 => Nat
  | ScalarType.double => Nat
  | ScalarType.string => List Char

/-- Modelled from the spec: scalar coercion (the external `value::as_<type>()`),
which fails if the runtime type of the node is not the requested type. -/
def Value.as_scalar : (T : ScalarType) → Value → Except EvalFault T.payload
  | ScalarType.bool, Value.bool b => Except.ok b
  | ScalarType.int64, Value.int64 i => Except.ok i
  | ScalarType.uint64, Value.uint64 n => Except.ok n
  | ScalarType.double, Value.double bits => Except.ok bits
  | ScalarType.string, Value.string s => Except.ok s
  | _, _ => Except.error EvalFault.typeMismatch

/-- The macro `QUERY_JSON_IMPL_3(json, path, type)`:
`query_json(json, path).as_<type>()`. -/
def query_json_as (T : ScalarType) (json : Value) (text : List Char) :
    Except QueryFault T.payload :=
  match query_json json text with
  | Except.error e => Except.error e
  | Except.ok ref =>
    match ref.target.as_scalar T with
    | Except.error e => Except.error (QueryFault.lookup e)
    | Except.ok x => Except.ok x

/-- The runtime type of a node, when it is a scalar with a payload. -/
def Value.scalar_type : Value → Option ScalarType
  | Value.bool _ => some ScalarType.bool
  | Value.int64 _ => some ScalarType.int64
  | Value.uint64 _ => some ScalarType.uint64
  | Value.double _ => some ScalarType.double
  | Value.string _ => some ScalarType.string
  | _ => none

/-- The scalar node of the given type and payload. -/
def ScalarType.node : (T : ScalarType) → T.payload → Value
  | ScalarType.bool, b => Value.bool b
  | ScalarType.int64, i => Value.int64 i
  | ScalarType.uint64, n => Value.uint64 n
  | ScalarType.double, bits => Value.double bits
  | ScalarType.string, s => Value.string s

/-- The node can serve the lookup: it is an object with a member of that key, or an
array longer than that index. -/
def Value.serves (node : Value) : PathArg → Prop
  | PathArg.text key => ∃ members child, node = Value.object members ∧ (key, child) ∈ members
  | PathArg.pos n => ∃ elements, node = Value.array elements ∧ n < elements.length

/-- The lookups applied one after the other, `root.at(s1).at(s2)...at(sn)`: each
lookup is applied to what the lookups before it returned. -/
def lookup_chain {R E : Type} (at_ : R → PathArg → Except E R) (root : R)
    (keys : List PathArg) : Except E R :=
  keys.foldl
    (fun acc x =>
      match acc with
      | Except.error e => Except.error e
      | Except.ok node => at_ node x)
    (Except.ok root)

/-- The tree of the test `JsonQuery.QueryJson`:
`{"foo":{"users":[{"id":1,"name":"Alice"},{"id":2,"name":"Bob"},
{"id":3,"name":"Carol","favorites":["C++","Rust","Python"]}]}}`. -/
def sample_tree : Value :=
  Value.object [("foo".toList, Value.object [("users".toList, Value.array [
    Value.object [("id".toList, Value.int64 1), ("name".toList, Value.string "Alice".toList)],
    Value.object [("id".toList, Value.int64 2), ("name".toList, Value.string "Bob".toList)],
    Value.object [("id".toList, Value.int64 3), ("name".toList, Value.string "Carol".toList),
      ("favorites".toList, Value.array [Value.string "C++".toList,
        Value.string "Rust".toList, Value.string "Python".toList])]])])]

/-! ## Simulation -/

theorem store_eq (size : Nat) (out : List KeyOrIndex) (st : ScanState) (x : KeyOrIndex)
    (hr : st.result = out ++ List.replicate (size - out.length) KeyOrIndex.default)
    (hc : st.count = out.length) :
    store st x =
      match emit size out x with
      | Except.error e => Except.error e
      | Except.ok out1 =>
        Except.ok { result := out1 ++ List.replicate (size - out1.length) KeyOrIndex.default
                    count := out1.length, start := st.start, is_array := st.is_array } := by
  unfold store emit
  rw [hr, hc]
  by_cases h : out.length < size
  · have h2 : out.length < (out ++ List.replicate (size - out.length) KeyOrIndex.default).length := by
      simp; omega
    simp only [h2, h, if_true]
    obtain ⟨k, hk⟩ : ∃ k, size - out.length = k + 1 := ⟨size - out.length - 1, by omega⟩
    have hk2 : size - (out.length + 1) = k := by omega
    simp [hk, hk2, List.replicate_succ, List.set_append]
  · have h2 : ¬ out.length < (out ++ List.replicate (size - out.length) KeyOrIndex.default).length := by
      simp; omega
    simp only [h2, h, if_false]

theorem substr_pending (p0 pending rest : List Char) :
    substr (p0 ++ pending ++ rest) p0.length (p0.length + pending.length - p0.length) = pending := by
  simp [substr, List.append_assoc]

theorem flush_key_eq (size : Nat) (text p0 rest pending : List Char) (out : List KeyOrIndex)
    (st : ScanState) (h : text = p0 ++ pending ++ rest)
    (hr : st.result = out ++ List.replicate (size - out.length) KeyOrIndex.default)
    (hc : st.count = out.length) (hs : st.start = p0.length) :
    flush_key text (p0.length + pending.length) st =
      match view_flush size pending out with
      | Except.error e => Except.error e
      | Except.ok out1 =>
        Except.ok { result := out1 ++ List.replicate (size - out1.length) KeyOrIndex.default
                    count := out1.length, start := p0.length, is_array := st.is_array } := by
  unfold flush_key view_flush
  by_cases hp : pending = []
  · subst hp
    simp only [hs, List.length_nil, Nat.add_zero, Nat.lt_irrefl, if_false, if_true]
    cases st
    simp_all
  · have hlen : 0 < pending.length := List.length_pos.mpr hp
    have hlt : p0.length < p0.length + pending.length := by omega
    simp only [hs, hlt, if_true, hp, if_false]
    rw [h, substr_pending, store_eq size out st _ hr hc, hs]

theorem scan_step_view (size : Nat) (text p0 rest : List Char) (c : Char) (v : View)
    (h : text = p0 ++ v.pending ++ c :: rest) :
    scan_step text (p0.length + v.pending.length) c (v.state size (p0.length + v.pending.length)) =
      match view_step size c v with
      | Except.error e => Except.error e
      | Except.ok v1 => Except.ok (v1.state size (p0.length + v.pending.length + 1)) := by
  have hs : (v.state size (p0.length + v.pending.length)).start = p0.length := by
    simp [View.state]
  unfold scan_step view_step
  by_cases h1 : c = '.'
  · simp only [h1, if_true]
    by_cases ha : v.is_array = true
    · simp [ha, View.state]
    · have ha2 : v.is_array = false := by simpa using ha
      have hst : (v.state size (p0.length + v.pending.length)).is_array = false := by
        simp [View.state, ha2]
      simp only [hst, ha2, Bool.false_eq_true, if_false]
      rw [flush_key_eq size text p0 (c :: rest) v.pending v.out _ h rfl rfl hs]
      cases view_flush size v.pending v.out <;> simp [View.state, ha2]
  · simp only [h1, if_false]
    by_cases h2 : c = '['
    · simp only [h2, if_true]
      by_cases ha : v.is_array = true
      · simp [ha, View.state]
      · have ha2 : v.is_array = false := by simpa using ha
        have hst : (v.state size (p0.length + v.pending.length)).is_array = false := by
          simp [View.state, ha2]
        simp only [hst, ha2, Bool.false_eq_true, if_false]
        rw [flush_key_eq size text p0 (c :: rest) v.pending v.out
          { v.state size (p0.length + v.pending.length) with is_array := true } h rfl rfl hs]
        cases view_flush size v.pending v.out <;> simp [View.state]
    · simp only [h2, if_false]
      by_cases h3 : c = ']'
      · simp only [h3, if_true]
        by_cases ha : v.is_array = true
        · have hst : (v.state size (p0.length + v.pending.length)).is_array = true := by
            simp [View.state, ha]
          simp only [hst, ha, Bool.not_true, Bool.false_eq_true, if_false, hs]
          rw [h, substr_pending]
          cases str_to_index v.pending with
          | error e => simp
          | ok n =>
            simp only []
            rw [store_eq size v.out _ (KeyOrIndex.index n) rfl rfl]
            cases emit size v.out (KeyOrIndex.index n) <;> simp [View.state]
        · have ha2 : v.is_array = false := by simpa using ha
          simp [ha2, View.state]
      · simp only [h3, if_false]
        simp [View.state]

/-- What a successful loop iteration did, by the character it saw. -/
theorem view_step_ok (size : Nat) (c : Char) (v v1 : View) (h : view_step size c v = Except.ok v1) :
    (c = '.' ∧ v.is_array = false ∧ v1.pending = [] ∧ v1.is_array = false ∧
        view_flush size v.pending v.out = Except.ok v1.out) ∨
    (c = '[' ∧ v.is_array = false ∧ v1.pending = [] ∧ v1.is_array = true ∧
        view_flush size v.pending v.out = Except.ok v1.out) ∨
    (c = ']' ∧ v.is_array = true ∧ v1.pending = [] ∧ v1.is_array = false ∧
        ∃ n, str_to_index v.pending = Except.ok n ∧
          emit size v.out (KeyOrIndex.index n) = Except.ok v1.out) ∨
    (c ≠ '.' ∧ c ≠ '[' ∧ c ≠ ']' ∧ v1.pending = v.pending ++ [c] ∧
        v1.is_array = v.is_array ∧ v1.out = v.out) := by
  unfold view_step at h
  by_cases h1 : c = '.'
  · left
    simp only [h1, if_true] at h
    cases ha : v.is_array with
    | true => simp [ha] at h
    | false =>
      simp only [ha, Bool.false_eq_true, if_false] at h
      cases hf : view_flush size v.pending v.out with
      | error e => simp [hf] at h
      | ok out =>
        simp only [hf, Except.ok.injEq] at h
        subst h
        simp [h1]
  · right
    simp only [h1, if_false] at h
    by_cases h2 : c = '['
    · left
      simp only [h2, if_true] at h
      cases ha : v.is_array with
      | true => simp [ha] at h
      | false =>
        simp only [ha, Bool.false_eq_true, if_false] at h
        cases hf : view_flush size v.pending v.out with
        | error e => simp [hf] at h
        | ok out =>
          simp only [hf, Except.ok.injEq] at h
          subst h
          simp [h2]
    · right
      simp only [h2, if_false] at h
      by_cases h3 : c = ']'
      · left
        simp only [h3, if_true] at h
        cases ha : v.is_array with
        | false => simp [ha] at h
        | true =>
          simp only [ha, Bool.not_true, Bool.false_eq_true, if_false] at h
          cases hn : str_to_index v.pending with
          | error e => simp [hn] at h
          | ok n =>
            simp only [hn] at h
            cases he : emit size v.out (KeyOrIndex.index n) with
            | error e => simp [he] at h
            | ok out =>
              simp only [he, Except.ok.injEq] at h
              subst h
              simp [h3, he]
      · right
        simp only [h3, if_false, Except.ok.injEq] at h
        subst h
        simp [h1, h2, h3]

theorem scan_loop_view (size : Nat) (text : List Char) :
    ∀ (rest p0 : List Char) (v : View), text = p0 ++ v.pending ++ rest →
      scan_loop text rest (p0.length + v.pending.length)
          (v.state size (p0.length + v.pending.length)) =
        match view_loop size rest v with
        | Except.error e => Except.error e
        | Except.ok v1 => Except.ok (v1.state size text.length) := by
  intro rest
  induction rest with
  | nil =>
    intro p0 v h
    simp [scan_loop, view_loop, h]
  | cons c rest ih =>
    intro p0 v h
    simp only [scan_loop, view_loop]
    rw [scan_step_view size text p0 rest c v h]
    cases hv : view_step size c v with
    | error e => simp
    | ok v1 =>
      simp only []
      have hv1 : ∃ p1, text = p1 ++ v1.pending ++ rest ∧
          p1.length + v1.pending.length = p0.length + v.pending.length + 1 := by
        rcases view_step_ok size c v v1 hv with ⟨_, _, hp, _⟩ | ⟨_, _, hp, _⟩ | ⟨_, _, hp, _⟩ |
          ⟨_, _, _, hp, _⟩
        · exact ⟨p0 ++ v.pending ++ [c], by simp [hp, h], by simp [hp]; omega⟩
        · exact ⟨p0 ++ v.pending ++ [c], by simp [hp, h], by simp [hp]; omega⟩
        · exact ⟨p0 ++ v.pending ++ [c], by simp [hp, h], by simp [hp]; omega⟩
        · exact ⟨p0, by simp [hp, h], by simp [hp]; omega⟩
      obtain ⟨p1, hp1, hlen⟩ := hv1
      have := ih p1 v1 hp1
      rw [hlen] at this
      exact this

theorem view_loop_append (size : Nat) (a b : List Char) :
    ∀ v : View, view_loop size (a ++ b) v =
      match view_loop size a v with
      | Except.error e => Except.error e
      | Except.ok v1 => view_loop size b v1 := by
  induction a with
  | nil => intro v; simp [view_loop]
  | cons c a ih =>
    intro v
    simp only [List.cons_append, view_loop]
    cases view_step size c v with
    | error e => simp
    | ok v1 => simpa using ih v1

theorem emit_ok (size : Nat) (out out1 : List KeyOrIndex) (x : KeyOrIndex)
    (h : emit size out x = Except.ok out1) : out.length < size ∧ out1 = out ++ [x] := by
  unfold emit at h
  by_cases hl : out.length < size
  · simp only [hl, if_true, Except.ok.injEq] at h
    exact ⟨hl, h.symm⟩
  · simp [hl] at h

theorem view_flush_ok (size : Nat) (pending : List Char) (out out1 : List KeyOrIndex)
    (h : view_flush size pending out = Except.ok out1) :
    (pending = [] ∧ out1 = out) ∨
      (pending ≠ [] ∧ out.length < size ∧ out1 = out ++ [KeyOrIndex.key pending]) := by
  unfold view_flush at h
  by_cases hp : pending = []
  · simp only [hp, if_true, Except.ok.injEq] at h
    exact Or.inl ⟨hp, h.symm⟩
  · simp only [hp, if_false] at h
    exact Or.inr ⟨hp, emit_ok size out out1 _ h⟩

theorem view_flush_le (size : Nat) (pending : List Char) (out out1 : List KeyOrIndex)
    (h : view_flush size pending out = Except.ok out1) (hle : out.length ≤ size) :
    out1.length ≤ size := by
  rcases view_flush_ok size pending out out1 h with ⟨_, h1⟩ | ⟨_, hlt, h1⟩
  · simpa [h1] using hle
  · simp [h1]; omega

theorem view_step_le (size : Nat) (c : Char) (v v1 : View)
    (h : view_step size c v = Except.ok v1) (hle : v.out.length ≤ size) :
    v1.out.length ≤ size := by
  rcases view_step_ok size c v v1 h with ⟨_, _, _, _, hf⟩ | ⟨_, _, _, _, hf⟩ |
    ⟨_, _, _, _, n, _, he⟩ | ⟨_, _, _, _, _, ho⟩
  · exact view_flush_le size _ _ _ hf hle
  · exact view_flush_le size _ _ _ hf hle
  · obtain ⟨hlt, h1⟩ := emit_ok size _ _ _ he
    simp [h1]; omega
  · simpa [ho] using hle

/-- An invariant of views that every successful iteration preserves holds after
the loop. -/
theorem view_loop_induct (size : Nat) (P : View → Prop)
    (hstep : ∀ c v v1, P v → view_step size c v = Except.ok v1 → P v1) :
    ∀ (rest : List Char) (v v1 : View), P v → view_loop size rest v = Except.ok v1 → P v1 := by
  intro rest
  induction rest with
  | nil =>
    intro v v1 hp h
    simp only [view_loop, Except.ok.injEq] at h
    exact h ▸ hp
  | cons c rest ih =>
    intro v v1 hp h
    simp only [view_loop] at h
    cases hs : view_step size c v with
    | error e => simp [hs] at h
    | ok v2 =>
      simp only [hs] at h
      exact ih v2 v1 (hstep c v v2 hp hs) h

theorem view_loop_le (size : Nat) (rest : List Char) (v v1 : View)
    (h : view_loop size rest v = Except.ok v1) (hle : v.out.length ≤ size) :
    v1.out.length ≤ size :=
  view_loop_induct size (fun v => v.out.length ≤ size)
    (fun c v v1 hp hs => view_step_le size c v v1 hs hp) rest v v1 hle h

theorem view_loop_suffix (size : Nat) :
    ∀ (rest : List Char) (v v1 : View), view_loop size rest v = Except.ok v1 →
      ∃ p1, v.pending ++ rest = p1 ++ v1.pending := by
  intro rest
  induction rest with
  | nil =>
    intro v v1 h
    simp only [view_loop, Except.ok.injEq] at h
    exact ⟨[], by simp [h]⟩
  | cons c rest ih =>
    intro v v1 h
    simp only [view_loop] at h
    cases hs : view_step size c v with
    | error e => simp [hs] at h
    | ok v2 =>
      simp only [hs] at h
      obtain ⟨p1, hp1⟩ := ih v2 v1 h
      rcases view_step_ok size c v v2 hs with ⟨_, _, hp, _⟩ | ⟨_, _, hp, _⟩ | ⟨_, _, hp, _⟩ |
        ⟨_, _, _, hp, _⟩
      · exact ⟨v.pending ++ [c] ++ p1, by simp [hp] at hp1; simp [← hp1]⟩
      · exact ⟨v.pending ++ [c] ++ p1, by simp [hp] at hp1; simp [← hp1]⟩
      · exact ⟨v.pending ++ [c] ++ p1, by simp [hp] at hp1; simp [← hp1]⟩
      · exact ⟨p1, by simp [hp] at hp1; simp [← hp1]⟩

/-- The scan of the source, loop and trailing flush, is the scan on views. -/
theorem scan_text_view (text : List Char) :
    scan_text text =
      match view_loop (count_json_paths text) text view_init with
      | Except.error e => Except.error e
      | Except.ok v =>
        match view_flush (count_json_paths text) v.pending v.out with
        | Except.error e => Except.error e
        | Except.ok out =>
          Except.ok { result := out ++ List.replicate (count_json_paths text - out.length)
                        KeyOrIndex.default
                      count := out.length
                      start := text.length - v.pending.length
                      is_array := v.is_array } := by
  have h0 : scan_init text = view_init.state (count_json_paths text) 0 := by
    simp [scan_init, View.state, view_init]
  have hl := scan_loop_view (count_json_paths text) text text [] view_init (by simp [view_init])
  simp only [List.length_nil, view_init, Nat.add_zero] at hl
  unfold scan_text
  rw [h0]
  simp only [view_init]
  rw [hl]
  cases hv : view_loop (count_json_paths text) text
      { pending := [], is_array := false, out := [] } with
  | error e => simp
  | ok v =>
    simp only []
    obtain ⟨p1, hp1⟩ := view_loop_suffix _ _ _ _ hv
    simp only [List.nil_append] at hp1
    have hs : (v.state (count_json_paths text) text.length).start = p1.length := by
      simp [View.state, hp1]
    have hd : List.drop p1.length text = v.pending := by simp [hp1]
    have hlen : text.length - v.pending.length = p1.length := by simp [hp1]
    rw [hs, hd, hlen]
    unfold view_flush
    by_cases hp : v.pending = []
    · have : ¬ p1.length < text.length := by simp [hp1, hp]
      simp only [this, if_false, hp, if_true]
      have hlen2 : text.length = p1.length := by
        have := congrArg List.length hp1
        simpa [hp] using this
      simp [View.state, hp, hlen2]
    · have : p1.length < text.length := by
        have := List.length_pos.mpr hp
        simp [hp1]; omega
      simp only [this, if_true, hp, if_false]
      rw [store_eq (count_json_paths text) v.out _ _ rfl rfl, hs]
      rfl

/-- The function `parse_json_paths` is the parse on views, value and fault alike. -/
theorem parse_json_paths_view (text : List Char) :
    parse_json_paths text = view_parse text := by
  unfold parse_json_paths view_parse view_text
  rw [scan_text_view]
  cases hv : view_loop (count_json_paths text) text view_init with
  | error e => simp
  | ok v =>
    simp only []
    cases hf : view_flush (count_json_paths text) v.pending v.out with
    | error e => simp
    | ok out =>
      simp only []
      have hle : out.length ≤ count_json_paths text :=
        view_flush_le _ _ _ _ hf
          (view_loop_le _ _ _ _ hv (by simp [view_init]))
      by_cases he : out.length = count_json_paths text
      · simp [he]
      · have : ¬ (out.length = out.length + (count_json_paths text - out.length)) := by omega
        simp [he, this]

/-! ## `str_to_index` -/

theorem to_digit_of_digit (c : Char) (h : is_decimal_digit c = true) :
    to_digit c = Except.ok (c.toNat - '0'.toNat) := by
  unfold is_decimal_digit at h
  simp only [Bool.and_eq_true, decide_eq_true_eq] at h
  unfold to_digit
  have h1 : ¬ c < '0' := not_lt.mpr h.1
  have h2 : ¬ '9' < c := not_lt.mpr h.2
  simp [h1, h2]

theorem to_digit_of_not_digit (c : Char) (h : is_decimal_digit c = false) :
    to_digit c = Except.error Fault.integerLiteralError := by
  unfold is_decimal_digit at h
  unfold to_digit
  have : c < '0' ∨ '9' < c := by
    by_contra hc
    push_neg at hc
    simp [hc.1, hc.2] at h
  simp [this]

theorem str_to_index_impl_value :
    ∀ (s : List Char) (accum : Nat), (∀ c ∈ s, is_decimal_digit c = true) → accum < SIZE_MOD →
      str_to_index_impl s accum =
        Except.ok ((accum * 10 ^ s.length + decimal_value s) % SIZE_MOD) := by
  intro s
  induction s with
  | nil =>
    intro accum _ hlt
    simp [str_to_index_impl, decimal_value, Nat.mod_eq_of_lt hlt]
  | cons c rest ih =>
    intro accum hd hlt
    have hc := to_digit_of_digit c (hd c (by simp))
    simp only [str_to_index_impl, hc]
    rw [ih _ (fun x hx => hd x (by simp [hx])) (Nat.mod_lt _ (by decide))]
    congr 1
    simp only [decimal_value, List.length_cons]
    have e : accum * 10 ^ (rest.length + 1) + ((c.toNat - '0'.toNat) * 10 ^ rest.length
        + decimal_value rest) = (accum * 10 + (c.toNat - '0'.toNat)) * 10 ^ rest.length
        + decimal_value rest := by ring
    rw [e]
    conv_rhs => rw [Nat.add_mod, Nat.mul_mod]
    conv_lhs => rw [Nat.add_mod, Nat.mul_mod, Nat.mod_mod]

theorem str_to_index_digits (s : List Char) (h : ∀ c ∈ s, is_decimal_digit c = true) :
    str_to_index s = Except.ok (decimal_value s % SIZE_MOD) := by
  unfold str_to_index
  rw [str_to_index_impl_value s 0 h (by decide)]
  simp

theorem str_to_index_impl_ok :
    ∀ (s : List Char) (accum n : Nat), str_to_index_impl s accum = Except.ok n →
      ∀ c ∈ s, is_decimal_digit c = true := by
  intro s
  induction s with
  | nil => intro _ _ _ c hc; simp at hc
  | cons c rest ih =>
    intro accum n h x hx
    simp only [str_to_index_impl] at h
    cases hd : is_decimal_digit c with
    | false => simp [to_digit_of_not_digit c hd] at h
    | true =>
      simp only [to_digit_of_digit c hd] at h
      rcases List.mem_cons.mp hx with hx | hx
      · exact hx ▸ hd
      · exact ih _ n h x hx

/-- The function `str_to_index` returns a value exactly on the strings of decimal digits. -/
theorem str_to_index_ok_iff (s : List Char) :
    (∃ n, str_to_index s = Except.ok n) ↔ ∀ c ∈ s, is_decimal_digit c = true := by
  constructor
  · rintro ⟨n, h⟩
    exact str_to_index_impl_ok s 0 n h
  · intro h
    exact ⟨_, str_to_index_digits s h⟩

/-- C3, as stated, fails: the twenty-digit string `"18446744073709551616"` is made
only of decimal digits and has the value `2 ^ 64`, yet `str_to_index` returns `0`,
the accumulator being a `size_t`. -/
theorem str_to_index_wraps :
    (∀ c ∈ "18446744073709551616".toList, is_decimal_digit c = true) ∧
      decimal_value "18446744073709551616".toList = 18446744073709551616 ∧
      str_to_index "18446744073709551616".toList = Except.ok 0 := by
  decide

/-- C3 (amended): for every string `s` made only of decimal digits (no sign, any
length, leading zeros allowed) `str_to_index s` returns the base-10 value of `s`
reduced modulo `2 ^ 64`; it returns the base-10 value itself whenever that value is
below `2 ^ 64`. -/
theorem str_to_index_value (s : List Char) (h : ∀ c ∈ s, is_decimal_digit c = true) :
    str_to_index s = Except.ok (decimal_value s % SIZE_MOD) ∧
      (decimal_value s < SIZE_MOD → str_to_index s = Except.ok (decimal_value s)) := by
  refine ⟨str_to_index_digits s h, fun hlt => ?_⟩
  rw [str_to_index_digits s h, Nat.mod_eq_of_lt hlt]

/-- The amended C3 at the strings of the test suite: `"007"`, `"0"` and `"123"`. -/
theorem str_to_index_value_witness :
    (∀ c ∈ "007".toList, is_decimal_digit c = true) ∧
      str_to_index "007".toList = Except.ok 7 ∧
      str_to_index "0".toList = Except.ok 0 ∧
      str_to_index "123".toList = Except.ok 123 :=
  ⟨by decide,
    (str_to_index_value "007".toList (by decide)).2 (by decide),
    (str_to_index_value "0".toList (by decide)).2 (by decide),
    (str_to_index_value "123".toList (by decide)).2 (by decide)⟩

/-! ## `count_json_paths` -/

theorem count_json_paths_count (text : List Char) :
    count_json_paths text = 1 + text.count '.' + text.count '[' := by
  unfold count_json_paths
  have : text.countP (fun c => c == '.' || c == '[') = text.count '.' + text.count '[' := by
    induction text with
    | nil => simp
    | cons c rest ih =>
      simp only [List.countP_cons, List.count_cons, ih]
      by_cases h1 : c = '.'
      · subst h1; simp; omega
      · by_cases h2 : c = '['
        · subst h2; simp; omega
        · simp [h1, h2]
  omega

/-- C4: for every text, `count_json_paths text` is one more than the number of
`'.'` characters plus the number of `'['` characters; it is 3 for `"foo.bar.baz"`
and 4 for `"foo.bar[1].baz"`. -/
theorem count_json_paths_spec :
    (∀ text : List Char, count_json_paths text = 1 + text.count '.' + text.count '[') ∧
      count_json_paths "foo.bar.baz".toList = 3 ∧
      count_json_paths "foo.bar[1].baz".toList = 4 :=
  ⟨count_json_paths_count, by decide, by decide⟩

/-! ## The scan on texts of the grammar -/

theorem not_delimiter (c : Char) (h : is_delimiter c = false) :
    c ≠ '.' ∧ c ≠ '[' ∧ c ≠ ']' := by
  unfold is_delimiter at h
  simp only [Bool.or_eq_false_iff, beq_eq_false_iff_ne, ne_eq] at h
  exact ⟨h.1.1, h.1.2, h.2⟩

theorem digit_not_delimiter (c : Char) (h : is_decimal_digit c = true) :
    is_delimiter c = false := by
  cases hd : is_delimiter c with
  | false => rfl
  | true =>
    unfold is_delimiter at hd
    simp only [Bool.or_eq_true, beq_iff_eq] at hd
    rcases hd with (hd | hd) | hd <;> subst hd <;> revert h <;> decide

theorem view_step_other (size : Nat) (c : Char) (v : View) (h : is_delimiter c = false) :
    view_step size c v = Except.ok { v with pending := v.pending ++ [c] } := by
  obtain ⟨h1, h2, h3⟩ := not_delimiter c h
  simp [view_step, h1, h2, h3]

/-- A run of characters other than delimiters is appended to the pending text. -/
theorem view_loop_run (size : Nat) (rest : List Char) :
    ∀ (run : List Char) (v : View), (∀ c ∈ run, is_delimiter c = false) →
      view_loop size (run ++ rest) v =
        view_loop size rest { v with pending := v.pending ++ run } := by
  intro run
  induction run with
  | nil => intro v _; simp
  | cons c run ih =>
    intro v h
    rw [List.cons_append]
    simp only [view_loop, view_step_other size c v (h c (by simp))]
    rw [ih _ (fun x hx => h x (by simp [hx]))]
    simp

theorem view_flush_flushed (size : Nat) (v : View) (h : v.flushed.length ≤ size) :
    view_flush size v.pending v.out = Except.ok v.flushed := by
  unfold view_flush View.flushed emit
  unfold View.flushed at h
  by_cases hp : v.pending = []
  · simp [hp]
  · simp only [hp, if_false] at h ⊢
    have : v.out.length < size := by simp at h; omega
    simp [this]

theorem view_loop_items (size : Nat) :
    ∀ (items : List PathItem) (v : View),
      (∀ it ∈ items, it.wf ∧ it.in_range) → v.is_array = false →
      v.flushed.length + items.length ≤ size →
      ∃ v1, view_loop size (items_text items) v = Except.ok v1 ∧
        view_flush size v1.pending v1.out =
          Except.ok (v.flushed ++ items.map PathItem.segment) := by
  intro items
  induction items with
  | nil =>
    intro v _ _ hle
    refine ⟨v, by simp [items_text, view_loop], ?_⟩
    simpa using view_flush_flushed size v (by simpa using hle)
  | cons it items ih =>
    intro v hw ha hle
    have hit := hw it (by simp)
    have hrest : ∀ x ∈ items, x.wf ∧ x.in_range := fun x hx => hw x (by simp [hx])
    simp only [List.length_cons] at hle
    have hfl := view_flush_flushed size v (by omega)
    cases it with
    | dot seg =>
      obtain ⟨hne, hnd⟩ : is_segment seg := hit.1
      have hstep : view_step size '.' v =
          Except.ok { pending := [], is_array := false, out := v.flushed } := by
        simp [view_step, ha, hfl]
      have hf : ({ pending := seg, is_array := false, out := v.flushed } : View).flushed =
          v.flushed ++ [KeyOrIndex.key seg] := by
        simp [View.flushed, hne]
      obtain ⟨v1, h1, h2⟩ := ih { pending := seg, is_array := false, out := v.flushed }
        hrest rfl (by rw [hf]; simp; omega)
      refine ⟨v1, ?_, ?_⟩
      · rw [items_text, PathItem.text, List.cons_append]
        simp only [view_loop, hstep]
        rw [view_loop_run size _ seg _ hnd]
        simpa using h1
      · rw [h2, hf]
        simp [PathItem.segment]
    | bracket d =>
      obtain ⟨hne, hdg⟩ : is_digits d := hit.1
      have hrange : decimal_value d < SIZE_MOD := hit.2
      have hstep : view_step size '[' v =
          Except.ok { pending := [], is_array := true, out := v.flushed } := by
        simp [view_step, ha, hfl]
      have hidx : str_to_index d = Except.ok (decimal_value d) := by
        rw [str_to_index_digits d hdg, Nat.mod_eq_of_lt hrange]
      have hclose : view_step size ']' { pending := d, is_array := true, out := v.flushed } =
          Except.ok (View.mk [] false (v.flushed ++ [KeyOrIndex.index (decimal_value d)])) := by
        have : v.flushed.length < size := by omega
        simp [view_step, hidx, emit, this]
      have hf : (View.mk [] false (v.flushed ++ [KeyOrIndex.index (decimal_value d)])).flushed =
          v.flushed ++ [KeyOrIndex.index (decimal_value d)] := by
        simp [View.flushed]
      obtain ⟨v1, h1, h2⟩ := ih (View.mk [] false (v.flushed ++ [KeyOrIndex.index (decimal_value d)]))
        hrest rfl (by rw [hf]; simp; omega)
      refine ⟨v1, ?_, ?_⟩
      · rw [items_text, PathItem.text, List.cons_append, List.append_assoc]
        simp only [view_loop, hstep]
        rw [view_loop_run size _ d _ (fun c hc => digit_not_delimiter c (hdg c hc))]
        rw [List.nil_append, List.singleton_append]
        simp only [view_loop, hclose]
        exact h1
      · rw [h2, hf]
        simp [PathItem.segment]

theorem countP_run (run : List Char) (h : ∀ c ∈ run, is_delimiter c = false) :
    run.countP (fun c => c == '.' || c == '[') = 0 := by
  rw [List.countP_eq_zero]
  intro c hc
  obtain ⟨h1, h2, _⟩ := not_delimiter c (h c hc)
  simp [h1, h2]

theorem countP_items_text :
    ∀ items : List PathItem, (∀ it ∈ items, it.wf) →
      (items_text items).countP (fun c => c == '.' || c == '[') = items.length := by
  intro items
  induction items with
  | nil => intro _; simp [items_text]
  | cons it items ih =>
    intro hw
    have hrest := ih (fun x hx => hw x (by simp [hx]))
    have hit := hw it (by simp)
    cases it with
    | dot seg =>
      obtain ⟨_, hnd⟩ : is_segment seg := hit
      simp [items_text, PathItem.text, List.countP_cons, List.countP_append, hrest,
        countP_run seg hnd]
    | bracket d =>
      obtain ⟨_, hdg⟩ : is_digits d := hit
      simp [items_text, PathItem.text, List.countP_cons, List.countP_append, hrest,
        countP_run d (fun c hc => digit_not_delimiter c (hdg c hc))]

theorem count_json_paths_path (s0 : List Char) (items : List PathItem)
    (h0 : is_segment s0) (hw : ∀ it ∈ items, it.wf) :
    count_json_paths (s0 ++ items_text items) = 1 + items.length := by
  simp [count_json_paths, List.countP_append, countP_run s0 h0.2, countP_items_text items hw]

/-- C1: for every text derivable from `path := segment ('.' segment | '[' digits ']')*`
whose digit runs have values below `2 ^ 64`, `parse_json_paths` succeeds and returns,
in order, `Key s` for each segment `s` and `Index n` for each bracketed digit run of
value `n`, and nothing else. -/
theorem parse_json_paths_grammar (s0 : List Char) (items : List PathItem)
    (h0 : is_segment s0) (hw : ∀ it ∈ items, it.wf ∧ it.in_range) :
    parse_json_paths (s0 ++ items_text items) =
      Except.ok (KeyOrIndex.key s0 :: items.map PathItem.segment) := by
  have hsize := count_json_paths_path s0 items h0 (fun it hit => (hw it hit).1)
  obtain ⟨v1, h1, h2⟩ := view_loop_items (1 + items.length) items
    { pending := s0, is_array := false, out := [] } hw rfl
    (by simp [View.flushed, h0.1])
  rw [parse_json_paths_view]
  unfold view_parse view_text
  rw [hsize, view_loop_run _ _ s0 view_init h0.2]
  simp only [view_init, List.nil_append, h1, h2]
  simp [View.flushed, h0.1]
  omega

/-- C1 at the paths of the test suite: `"foo.bar[1].baz"` and `"foo.bar.baz[2]"`. -/
theorem parse_json_paths_grammar_witness :
    is_segment "foo".toList ∧
      (∀ it ∈ [PathItem.dot "bar".toList, PathItem.bracket "1".toList,
          PathItem.dot "baz".toList], it.wf ∧ it.in_range) ∧
      parse_json_paths "foo.bar[1].baz".toList =
        Except.ok [KeyOrIndex.key "foo".toList, KeyOrIndex.key "bar".toList,
          KeyOrIndex.index 1, KeyOrIndex.key "baz".toList] ∧
      parse_json_paths "foo.bar.baz[2]".toList =
        Except.ok [KeyOrIndex.key "foo".toList, KeyOrIndex.key "bar".toList,
          KeyOrIndex.key "baz".toList, KeyOrIndex.index 2] :=
  ⟨by unfold is_segment; decide,
    by simp [PathItem.wf, PathItem.in_range, is_segment, is_digits, SIZE_MOD]; decide,
    parse_json_paths_grammar "foo".toList
      [PathItem.dot "bar".toList, PathItem.bracket "1".toList, PathItem.dot "baz".toList]
      (by unfold is_segment; decide)
      (by simp [PathItem.wf, PathItem.in_range, is_segment, is_digits, SIZE_MOD]; decide),
    parse_json_paths_grammar "foo".toList
      [PathItem.dot "bar".toList, PathItem.dot "baz".toList, PathItem.bracket "2".toList]
      (by unfold is_segment; decide)
      (by simp [PathItem.wf, PathItem.in_range, is_segment, is_digits, SIZE_MOD]; decide)⟩

/-! ## Invariants of the scan -/

/-- An invariant relating the text read so far to the view, preserved by every
successful iteration, holds after the loop. -/
theorem view_loop_induct_read (size : Nat) (P : List Char → View → Prop)
    (hstep : ∀ p c v v1, P p v → view_step size c v = Except.ok v1 → P (p ++ [c]) v1) :
    ∀ (rest p : List Char) (v v1 : View), P p v → view_loop size rest v = Except.ok v1 →
      P (p ++ rest) v1 := by
  intro rest
  induction rest with
  | nil =>
    intro p v v1 hp h
    simp only [view_loop, Except.ok.injEq] at h
    simpa [← h] using hp
  | cons c rest ih =>
    intro p v v1 hp h
    simp only [view_loop] at h
    cases hs : view_step size c v with
    | error e => simp [hs] at h
    | ok v2 =>
      simp only [hs] at h
      have := ih (p ++ [c]) v2 v1 (hstep p c v v2 hp hs) h
      simpa using this

theorem view_loop_split (size : Nat) (pre post : List Char) (c : Char) (v0 vf : View)
    (h : view_loop size (pre ++ c :: post) v0 = Except.ok vf) :
    ∃ v v1, view_loop size pre v0 = Except.ok v ∧ view_step size c v = Except.ok v1 ∧
      view_loop size post v1 = Except.ok vf := by
  rw [view_loop_append] at h
  cases hv : view_loop size pre v0 with
  | error e => simp [hv] at h
  | ok v =>
    simp only [hv, view_loop] at h
    cases hs : view_step size c v with
    | error e => simp [hs] at h
    | ok v1 =>
      simp only [hs] at h
      exact ⟨v, v1, rfl, hs, h⟩

theorem parse_ok_loop (text : List Char) (r : List KeyOrIndex)
    (h : parse_json_paths text = Except.ok r) :
    ∃ v, view_loop (count_json_paths text) text view_init = Except.ok v ∧
      view_flush (count_json_paths text) v.pending v.out = Except.ok r ∧
      r.length = count_json_paths text := by
  rw [parse_json_paths_view] at h
  unfold view_parse view_text at h
  cases hv : view_loop (count_json_paths text) text view_init with
  | error e => simp [hv] at h
  | ok v =>
    simp only [hv] at h
    cases hf : view_flush (count_json_paths text) v.pending v.out with
    | error e => simp [hf] at h
    | ok out =>
      simp only [hf] at h
      by_cases hl : out.length = count_json_paths text
      · simp only [hl, ne_eq, not_true_eq_false, if_false, Except.ok.injEq] at h
        subst h
        exact ⟨v, rfl, hf, hl⟩
      · simp [hl] at h

theorem loop_fails_parse_fails (text : List Char) (e : Fault)
    (h : view_loop (count_json_paths text) text view_init = Except.error e) :
    parse_json_paths text = Except.error e := by
  rw [parse_json_paths_view]
  unfold view_parse view_text
  simp [h]

/-- While the loop is inside brackets the pending text is what follows the last `'['`. -/
theorem view_loop_open_bracket (size : Nat) (pre : List Char) (v : View)
    (h : view_loop size pre view_init = Except.ok v) (ha : v.is_array = true) :
    ∃ a, pre = a ++ '[' :: v.pending := by
  have := view_loop_induct_read size
    (fun p v => v.is_array = true → ∃ a, p = a ++ '[' :: v.pending)
    (by
      intro p c v v1 hp hs ha1
      rcases view_step_ok size c v v1 hs with ⟨_, _, _, hf, _⟩ | ⟨hc, _, hpd, _, _⟩ |
        ⟨_, _, _, hf, _⟩ | ⟨_, _, _, hpd, hav, _⟩
      · simp [hf] at ha1
      · exact ⟨p, by simp [hc, hpd]⟩
      · simp [hf] at ha1
      · obtain ⟨a, hpa⟩ := hp (hav ▸ ha1)
        exact ⟨a, by simp [hpa, hpd]⟩)
    pre [] view_init v (by simp [view_init]) h
  simpa using this ha

theorem bracket_open_snoc (p : List Char) (c : Char) :
    bracket_open (p ++ [c]) =
      if c = '[' then true else if c = ']' then false else bracket_open p := by
  simp [bracket_open, List.foldl_append]

/-- The flag `is_array` after reading `pre` is `bracket_open pre`. -/
theorem view_loop_is_array (size : Nat) (pre : List Char) (v : View)
    (h : view_loop size pre view_init = Except.ok v) : v.is_array = bracket_open pre := by
  have := view_loop_induct_read size (fun p v => v.is_array = bracket_open p)
    (by
      intro p c v v1 hp hs
      rw [bracket_open_snoc]
      rcases view_step_ok size c v v1 hs with ⟨hc, hv, _, hf, _⟩ | ⟨hc, _, _, hf, _⟩ |
        ⟨hc, _, _, hf, _⟩ | ⟨_, h2, h3, _, hav, _⟩
      · subst hc
        rw [hf, ← hp, hv]
        simp
      · simp [hf, hc]
      · subst hc
        rw [hf]
        simp
      · simp only [h2, h3, if_false]
        rw [hav, hp])
    pre [] view_init v (by simp [view_init, bracket_open]) h
  simpa using this

/-! ## What the parser accepts and rejects -/

/-- C2, as stated, fails: `"[1]a"` is not derivable from the grammar (a path starts
with a segment, and a key after `']'` needs a `'.'`), yet `parse_json_paths` returns
`[Index 1, Key a]` for it: the scan emits 2 segments and `count_json_paths` is 2. -/
theorem parse_json_paths_accepts_outside_grammar :
    parse_json_paths "[1]a".toList =
        Except.ok [KeyOrIndex.index 1, KeyOrIndex.key "a".toList] ∧
      ¬ Derivable "[1]a".toList := by
  refine ⟨by decide, ?_⟩
  rintro ⟨s0, items, ⟨hne, hnd⟩, _, ht⟩
  cases s0 with
  | nil => exact hne rfl
  | cons c s0 =>
    have hc : '[' = c := by
      have := congrArg List.head? ht
      simpa using this
    have := hnd c (by simp)
    rw [← hc] at this
    revert this
    decide

/-- C6: `parse_json_paths` fails on every text that, read left to right, has a `']'`
outside an open bracket, or a `'['` or a `'.'` inside an open bracket. -/
theorem parse_json_paths_bracket_misuse (pre post : List Char) (c : Char)
    (h : (c = ']' ∧ bracket_open pre = false) ∨ (c = '[' ∧ bracket_open pre = true) ∨
      (c = '.' ∧ bracket_open pre = true)) :
    Fails (parse_json_paths (pre ++ c :: post)) := by
  cases hv : view_loop (count_json_paths (pre ++ c :: post)) pre view_init with
  | error e =>
    refine ⟨e, loop_fails_parse_fails _ e ?_⟩
    rw [view_loop_append, hv]
  | ok v =>
    have ha := view_loop_is_array _ pre v hv
    have hstep : view_step (count_json_paths (pre ++ c :: post)) c v =
        Except.error Fault.syntaxError := by
      rcases h with ⟨hc, hb⟩ | ⟨hc, hb⟩ | ⟨hc, hb⟩ <;> subst hc <;> rw [hb] at ha <;>
        simp [view_step, ha]
    refine ⟨Fault.syntaxError, loop_fails_parse_fails _ _ ?_⟩
    rw [view_loop_append, hv]
    simp [view_loop, hstep]

/-- C6 at the texts `"foo]bar"` (stray close), `"foo[[1]"` (nested open) and
`"foo[1.2]"` (dot inside brackets). -/
theorem parse_json_paths_bracket_misuse_witness :
    bracket_open "foo".toList = false ∧ Fails (parse_json_paths "foo]bar".toList) ∧
      bracket_open "foo[".toList = true ∧ Fails (parse_json_paths "foo[[1]".toList) ∧
      bracket_open "foo[1".toList = true ∧ Fails (parse_json_paths "foo[1.2]".toList) :=
  ⟨by decide,
    parse_json_paths_bracket_misuse "foo".toList "bar".toList ']' (Or.inl ⟨rfl, by decide⟩),
    by decide,
    parse_json_paths_bracket_misuse "foo[".toList "1]".toList '['
      (Or.inr (Or.inl ⟨rfl, by decide⟩)),
    by decide,
    parse_json_paths_bracket_misuse "foo[1".toList "2]".toList '.'
      (Or.inr (Or.inr ⟨rfl, by decide⟩))⟩

/-! ## The segment count -/

theorem scan_text_result_length (text : List Char) (st : ScanState)
    (h : scan_text text = Except.ok st) : st.result.length = count_json_paths text := by
  rw [scan_text_view] at h
  cases hv : view_loop (count_json_paths text) text view_init with
  | error e => simp [hv] at h
  | ok v =>
    simp only [hv] at h
    cases hf : view_flush (count_json_paths text) v.pending v.out with
    | error e => simp [hf] at h
    | ok out =>
      simp only [hf, Except.ok.injEq] at h
      have hle : out.length ≤ count_json_paths text :=
        view_flush_le _ _ _ _ hf (view_loop_le _ _ _ _ hv (by simp [view_init]))
      subst h
      simp
      omega

/-- C5: when `parse_json_paths` succeeds, the number of segments the scan emitted is
`count_json_paths text = 1 + #'.' + #'['`, hence at least 1, and it is the length of
the result; when the scan ends with another number of emitted segments, parsing
fails, as it does when the scan itself stops with a fault (a store past the
predicted number included); on the empty text the scan emits no segment and
parsing fails. -/
theorem parse_json_paths_segment_count :
    (∀ (text : List Char) (r : List KeyOrIndex), parse_json_paths text = Except.ok r →
      ∃ st, scan_text text = Except.ok st ∧ st.result = r ∧ st.count = r.length ∧
        r.length = count_json_paths text ∧
        count_json_paths text = 1 + text.count '.' + text.count '[' ∧ 1 ≤ r.length) ∧
    (∀ (text : List Char) (st : ScanState), scan_text text = Except.ok st →
      st.count ≠ count_json_paths text →
      parse_json_paths text = Except.error Fault.syntaxError) ∧
    (∀ (text : List Char) (e : Fault), scan_text text = Except.error e →
      parse_json_paths text = Except.error e) ∧
    (∃ st, scan_text [] = Except.ok st ∧ st.count = 0) ∧
    parse_json_paths [] = Except.error Fault.syntaxError := by
  refine ⟨?_, ?_, ?_, ⟨scan_init [], by decide, by decide⟩, by decide⟩
  · intro text r h
    unfold parse_json_paths at h
    cases hs : scan_text text with
    | error e => simp [hs] at h
    | ok st =>
      simp only [hs] at h
      have hlen := scan_text_result_length text st hs
      by_cases hc : st.count = st.result.length
      · simp only [hc, ne_eq, not_true_eq_false, if_false, Except.ok.injEq] at h
        subst h
        refine ⟨st, rfl, rfl, hc, hlen, count_json_paths_count text, ?_⟩
        rw [hlen]
        unfold count_json_paths
        omega
      · simp [hc] at h
  · intro text st hs hne
    have hlen := scan_text_result_length text st hs
    unfold parse_json_paths
    simp only [hs, hlen]
    simp [hne]
  · intro text e hs
    unfold parse_json_paths
    simp [hs]

/-- C5 at `"foo.bar[1].baz"` (four segments emitted, four predicted) and at `"foo."`
(one segment emitted, two predicted). -/
theorem parse_json_paths_segment_count_witness :
    (∃ st, scan_text "foo.bar[1].baz".toList = Except.ok st ∧ st.count = 4 ∧
        count_json_paths "foo.bar[1].baz".toList = 4) ∧
      parse_json_paths "foo.".toList = Except.error Fault.syntaxError := by
  obtain ⟨h1, h2, _⟩ := parse_json_paths_segment_count
  obtain ⟨st, hs, _, hc, hl, _⟩ := h1 "foo.bar[1].baz".toList
    [KeyOrIndex.key "foo".toList, KeyOrIndex.key "bar".toList,
      KeyOrIndex.index 1, KeyOrIndex.key "baz".toList] (by decide)
  refine ⟨⟨st, hs, hc, by decide⟩, ?_⟩
  exact h2 "foo.".toList
    { result := [KeyOrIndex.key "foo".toList, KeyOrIndex.default], count := 1, start := 4,
      is_array := false } (by decide) (by decide)

/-! ## Unterminated and empty brackets -/

/-- C7 at `"a[b"`: the scan ends inside an open bracket, and `parse_json_paths`
returns `[Key a, Key b]`. -/
theorem parse_json_paths_unterminated_bracket :
    bracket_open "a[b".toList = true ∧
      parse_json_paths "a[b".toList =
        Except.ok [KeyOrIndex.key "a".toList, KeyOrIndex.key "b".toList] := by
  decide

/-- Inside an open bracket, characters up to the closing `']'` can only be
accumulated. -/
theorem view_loop_inside (size : Nat) :
    ∀ (d : List Char) (v v2 : View), v.is_array = true → ']' ∉ d →
      view_loop size d v = Except.ok v2 →
      v2.pending = v.pending ++ d ∧ v2.is_array = true := by
  intro d
  induction d with
  | nil =>
    intro v v2 ha _ h
    simp only [view_loop, Except.ok.injEq] at h
    subst h
    simp [ha]
  | cons c d ih =>
    intro v v2 ha hnot h
    simp only [view_loop] at h
    cases hs : view_step size c v with
    | error e => simp [hs] at h
    | ok v1 =>
      simp only [hs] at h
      rcases view_step_ok size c v v1 hs with ⟨_, hf, _⟩ | ⟨_, hf, _⟩ | ⟨hc, _⟩ |
        ⟨_, _, _, hp, hav, _⟩
      · rw [ha] at hf; exact absurd hf (by decide)
      · rw [ha] at hf; exact absurd hf (by decide)
      · exact absurd (by simp [hc]) hnot
      · obtain ⟨h1, h2⟩ := ih v1 v2 (hav ▸ ha) (fun hm => hnot (by simp [hm])) h
        exact ⟨by simp [h1, hp], h2⟩

/-- C8, as stated, fails: `parse_json_paths` succeeds on `"foo[]"`, where the text
enclosed by `'['` and `']'` is empty, and emits `Index 0` for it. -/
theorem parse_json_paths_empty_brackets :
    parse_json_paths ("foo".toList ++ '[' :: ([] ++ ']' :: [])) =
      Except.ok [KeyOrIndex.key "foo".toList, KeyOrIndex.index 0] := by
  decide

/-- C8 (amended): when `parse_json_paths` succeeds, the text enclosed by each `'['`
and its closing `']'` consists of decimal digits only (it may be empty); and
`str_to_index` fails exactly when its argument has a character outside `'0'..'9'`. -/
theorem parse_json_paths_bracket_contents (text pre d post : List Char) (r : List KeyOrIndex)
    (h : parse_json_paths text = Except.ok r) (ht : text = pre ++ '[' :: (d ++ ']' :: post))
    (hd : ']' ∉ d) :
    (∀ c ∈ d, is_decimal_digit c = true) ∧
      (∀ s : List Char, Fails (str_to_index s) ↔ ∃ c ∈ s, is_decimal_digit c = false) := by
  constructor
  · obtain ⟨vf, hloop, _, _⟩ := parse_ok_loop text r h
    rw [ht] at hloop
    obtain ⟨v, v1, _, hopen, hrest⟩ := view_loop_split _ pre _ '[' view_init vf hloop
    obtain ⟨v2, v3, hin, hclose, _⟩ := view_loop_split _ d post ']' v1 vf hrest
    rcases view_step_ok _ _ v v1 hopen with ⟨hc, _⟩ | ⟨_, _, hp1, ha1, _⟩ | ⟨hc, _⟩ |
      ⟨_, hc, _⟩
    · exact absurd hc (by decide)
    · obtain ⟨hp2, _⟩ := view_loop_inside _ d v1 v2 ha1 hd hin
      rcases view_step_ok _ _ v2 v3 hclose with ⟨hc, _⟩ | ⟨hc, _⟩ | ⟨_, _, _, _, n, hn, _⟩ |
        ⟨_, _, hc, _⟩
      · exact absurd hc (by decide)
      · exact absurd hc (by decide)
      · rw [hp2, hp1, List.nil_append] at hn
        exact (str_to_index_ok_iff d).mp ⟨n, hn⟩
      · exact absurd rfl hc
    · exact absurd hc (by decide)
    · exact absurd rfl hc
  · intro s
    have hiff := str_to_index_ok_iff s
    constructor
    · rintro ⟨e, he⟩
      by_contra hc
      push_neg at hc
      obtain ⟨n, hn⟩ := hiff.mpr (fun c hcs => by simpa using hc c hcs)
      rw [hn] at he
      exact absurd he (by simp)
    · rintro ⟨c, hcs, hc⟩
      cases hr : str_to_index s with
      | error e => exact ⟨e, rfl⟩
      | ok n =>
        have := hiff.mp ⟨n, hr⟩ c hcs
        rw [hc] at this
        exact absurd this (by decide)

/-- The amended C8 at `"foo[12]"`, and `str_to_index` at `"1x"`. -/
theorem parse_json_paths_bracket_contents_witness :
    parse_json_paths "foo[12]".toList =
        Except.ok [KeyOrIndex.key "foo".toList, KeyOrIndex.index 12] ∧
      (∀ c ∈ "12".toList, is_decimal_digit c = true) ∧
      Fails (str_to_index "1x".toList) :=
  have hw := parse_json_paths_bracket_contents "foo[12]".toList "foo".toList "12".toList []
    [KeyOrIndex.key "foo".toList, KeyOrIndex.index 12] (by decide) (by decide) (by decide)
  ⟨by decide, hw.1, (hw.2 "1x".toList).mpr ⟨'x', by decide, by decide⟩⟩

/-! ## A dot immediately before a bracket -/

theorem count_json_paths_dot_bracket (k d : List Char) (hk : is_segment k) (hd : is_digits d) :
    count_json_paths (k ++ '.' :: '[' :: (d ++ [']'])) = 3 := by
  simp [count_json_paths, List.countP_append, List.countP_cons, countP_run k hk.2,
    countP_run d (fun c hc => digit_not_delimiter c (hd.2 c hc))]

theorem view_loop_dot_bracket (k d : List Char) (hk : is_segment k) (hd : is_digits d) :
    view_loop 3 (k ++ '.' :: '[' :: (d ++ [']'])) view_init =
      Except.ok (View.mk [] false
        [KeyOrIndex.key k, KeyOrIndex.index (decimal_value d % SIZE_MOD)]) := by
  have hdot : view_step 3 '.' (View.mk k false []) = Except.ok (View.mk [] false [KeyOrIndex.key k]) := by
    simp [view_step, view_flush, hk.1, emit]
  have hopen : view_step 3 '[' (View.mk [] false [KeyOrIndex.key k]) =
      Except.ok (View.mk [] true [KeyOrIndex.key k]) := by
    simp [view_step, view_flush]
  have hclose : view_step 3 ']' (View.mk d true [KeyOrIndex.key k]) =
      Except.ok (View.mk [] false
        [KeyOrIndex.key k, KeyOrIndex.index (decimal_value d % SIZE_MOD)]) := by
    simp [view_step, str_to_index_digits d hd.2, emit]
  rw [view_loop_run 3 _ k view_init hk.2]
  simp only [view_init, List.nil_append, view_loop, hdot, hopen]
  rw [view_loop_run 3 _ d _ (fun c hc => digit_not_delimiter c (hd.2 c hc))]
  simp only [List.nil_append, view_loop, hclose]

/-- C9: for every non-empty key `k` free of `'.'`, `'['`, `']'` and every non-empty
digit string `d`, `parse_json_paths` fails on `k ++ ".[" ++ d ++ "]"`: the scan emits
2 segments while `count_json_paths` is 3. -/
theorem parse_json_paths_dot_bracket (k d : List Char) (hk : is_segment k) (hd : is_digits d) :
    parse_json_paths (k ++ '.' :: '[' :: (d ++ [']'])) = Except.error Fault.syntaxError ∧
      count_json_paths (k ++ '.' :: '[' :: (d ++ [']'])) = 3 ∧
      ∃ st, scan_text (k ++ '.' :: '[' :: (d ++ [']'])) = Except.ok st ∧ st.count = 2 := by
  have hsize := count_json_paths_dot_bracket k d hk hd
  have hloop := view_loop_dot_bracket k d hk hd
  refine ⟨?_, hsize, ?_⟩
  · rw [parse_json_paths_view]
    unfold view_parse view_text
    rw [hsize, hloop]
    simp [view_flush]
  · rw [scan_text_view, hsize, hloop]
    simp [view_flush]

/-- C9 at `"foo.[1]"`. -/
theorem parse_json_paths_dot_bracket_witness :
    is_segment "foo".toList ∧ is_digits "1".toList ∧
      parse_json_paths "foo.[1]".toList = Except.error Fault.syntaxError :=
  ⟨by unfold is_segment; decide, by unfold is_digits; decide,
    (parse_json_paths_dot_bracket "foo".toList "1".toList
      (by unfold is_segment; decide) (by unfold is_digits; decide)).1⟩

/-! ## Keys -/

theorem is_delimiter_false (c : Char) (h1 : c ≠ '.') (h2 : c ≠ '[') (h3 : c ≠ ']') :
    is_delimiter c = false := by
  simp [is_delimiter, h1, h2, h3]

theorem view_flush_keys (size : Nat) (pending : List Char) (out out1 : List KeyOrIndex)
    (h : view_flush size pending out = Except.ok out1)
    (hp : ∀ c ∈ pending, is_delimiter c = false)
    (ho : ∀ s, KeyOrIndex.key s ∈ out → is_segment s) :
    ∀ s, KeyOrIndex.key s ∈ out1 → is_segment s := by
  intro s hs
  rcases view_flush_ok size pending out out1 h with ⟨_, h1⟩ | ⟨hne, _, h1⟩
  · exact ho s (h1 ▸ hs)
  · rw [h1] at hs
    rcases List.mem_append.mp hs with hs | hs
    · exact ho s hs
    · simp only [List.mem_singleton, KeyOrIndex.key.injEq] at hs
      exact hs ▸ ⟨hne, hp⟩

/-- Every key the loop has emitted is a segment of the grammar, and the pending text
has no delimiter. -/
theorem view_loop_keys (size : Nat) (text : List Char) (v : View)
    (h : view_loop size text view_init = Except.ok v) :
    (∀ c ∈ v.pending, is_delimiter c = false) ∧
      ∀ s, KeyOrIndex.key s ∈ v.out → is_segment s := by
  refine view_loop_induct size
    (fun v => (∀ c ∈ v.pending, is_delimiter c = false) ∧
      ∀ s, KeyOrIndex.key s ∈ v.out → is_segment s)
    ?_ text view_init v (by simp [view_init]) h
  intro c v v1 ⟨hp, ho⟩ hs
  rcases view_step_ok size c v v1 hs with ⟨_, _, hp1, _, hf⟩ | ⟨_, _, hp1, _, hf⟩ |
    ⟨_, _, hp1, _, n, _, he⟩ | ⟨h1, h2, h3, hp1, _, ho1⟩
  · exact ⟨by simp [hp1], view_flush_keys size _ _ _ hf hp ho⟩
  · exact ⟨by simp [hp1], view_flush_keys size _ _ _ hf hp ho⟩
  · refine ⟨by simp [hp1], ?_⟩
    intro s hs
    rw [(emit_ok size _ _ _ he).2] at hs
    rcases List.mem_append.mp hs with hs | hs
    · exact ho s hs
    · simp at hs
  · refine ⟨?_, by rw [ho1]; exact ho⟩
    intro x hx
    rw [hp1] at hx
    rcases List.mem_append.mp hx with hx | hx
    · exact hp x hx
    · simp only [List.mem_singleton] at hx
      exact hx ▸ is_delimiter_false c h1 h2 h3

/-- C10: when `parse_json_paths` succeeds, every `Key` segment of the result is
non-empty and contains none of `'.'`, `'['`, `']'`. -/
theorem parse_json_paths_keys (text : List Char) (r : List KeyOrIndex)
    (h : parse_json_paths text = Except.ok r) :
    ∀ s, KeyOrIndex.key s ∈ r → s ≠ [] ∧ ∀ c ∈ s, c ≠ '.' ∧ c ≠ '[' ∧ c ≠ ']' := by
  obtain ⟨v, hloop, hflush, _⟩ := parse_ok_loop text r h
  obtain ⟨hp, ho⟩ := view_loop_keys _ text v hloop
  intro s hs
  obtain ⟨hne, hnd⟩ := view_flush_keys _ _ _ _ hflush hp ho s hs
  exact ⟨hne, fun c hc => not_delimiter c (hnd c hc)⟩

/-- C10 at `"foo.1st.2[0]"`. -/
theorem parse_json_paths_keys_witness :
    parse_json_paths "foo.1st.2[0]".toList =
        Except.ok [KeyOrIndex.key "foo".toList, KeyOrIndex.key "1st".toList,
          KeyOrIndex.key "2".toList, KeyOrIndex.index 0] ∧
      ∀ s, KeyOrIndex.key s ∈ [KeyOrIndex.key "foo".toList, KeyOrIndex.key "1st".toList,
          KeyOrIndex.key "2".toList, KeyOrIndex.index 0] →
        s ≠ [] ∧ ∀ c ∈ s, c ≠ '.' ∧ c ≠ '[' ∧ c ≠ ']' :=
  ⟨by decide, parse_json_paths_keys "foo.1st.2[0]".toList _ (by decide)⟩

/-! ## `get_path_types` -/

theorem set_append_replicate {α : Type} (done : List α) (k : Nat) (d x : α) :
    (done ++ List.replicate (k + 1) d).set done.length x =
      (done ++ [x]) ++ List.replicate k d := by
  simp [List.replicate_succ, List.set_append]

theorem get_path_types_fold (paths : List KeyOrIndex) :
    ∀ n, n ≤ paths.length →
      (List.range n).foldl
        (fun result i =>
          result.set i
            (if holds_index (paths.getD i KeyOrIndex.default) then PathType.ArrayIndex
             else PathType.ObjetKey))
        (List.replicate paths.length PathType.ObjetKey) =
      (paths.take n).map KeyOrIndex.path_type ++
        List.replicate (paths.length - n) PathType.ObjetKey := by
  intro n
  induction n with
  | zero => intro _; simp
  | succ n ih =>
    intro hn
    rw [List.range_succ, List.foldl_append, ih (by omega)]
    simp only [List.foldl_cons, List.foldl_nil]
    obtain ⟨k, hk⟩ : ∃ k, paths.length - n = k + 1 := ⟨paths.length - n - 1, by omega⟩
    have hk2 : paths.length - (n + 1) = k := by omega
    have hlen : ((paths.take n).map KeyOrIndex.path_type).length = n := by
      simp; omega
    rw [hk, hk2]
    have := set_append_replicate ((paths.take n).map KeyOrIndex.path_type) k PathType.ObjetKey
      (if holds_index (paths.getD n KeyOrIndex.default) then PathType.ArrayIndex
       else PathType.ObjetKey)
    rw [hlen] at this
    rw [this]
    congr 1
    have hlt : n < paths.length := by omega
    rw [List.take_succ, List.map_append]
    congr 1
    simp only [List.getD_eq_getElem?_getD, List.getElem?_eq_getElem hlt, Option.getD_some,
      Option.toList_some, List.map_cons, List.map_nil]
    cases paths[n] <;> simp [holds_index, KeyOrIndex.path_type]

theorem get_path_types_eq_map (paths : List KeyOrIndex) :
    get_path_types paths = paths.map KeyOrIndex.path_type := by
  unfold get_path_types
  rw [get_path_types_fold paths paths.length (le_refl _)]
  simp

/-- C20: for every array of segments, `get_path_types` returns an array of the same
length whose `i`-th entry is `ArrayIndex` when the `i`-th segment holds an index
number and `ObjetKey` when it holds key text; `[foo, bar, 0, baz]` gives
`[ObjetKey, ObjetKey, ArrayIndex, ObjetKey]`. -/
theorem get_path_types_spec :
    (∀ paths : List KeyOrIndex, (get_path_types paths).length = paths.length) ∧
    (∀ (paths : List KeyOrIndex) (i n : Nat), paths[i]? = some (KeyOrIndex.index n) →
      (get_path_types paths)[i]? = some PathType.ArrayIndex) ∧
    (∀ (paths : List KeyOrIndex) (i : Nat) (s : List Char),
      paths[i]? = some (KeyOrIndex.key s) →
      (get_path_types paths)[i]? = some PathType.ObjetKey) ∧
    get_path_types [KeyOrIndex.key "foo".toList, KeyOrIndex.key "bar".toList,
        KeyOrIndex.index 0, KeyOrIndex.key "baz".toList] =
      [PathType.ObjetKey, PathType.ObjetKey, PathType.ArrayIndex, PathType.ObjetKey] := by
  refine ⟨?_, ?_, ?_, by decide⟩
  · intro paths
    simp [get_path_types_eq_map]
  · intro paths i n h
    simp [get_path_types_eq_map, List.getElem?_map, h, KeyOrIndex.path_type]
  · intro paths i s h
    simp [get_path_types_eq_map, List.getElem?_map, h, KeyOrIndex.path_type]

/-- C20 at the array `[a, 7]`: two entries, the second `ArrayIndex`. -/
theorem get_path_types_spec_witness :
    (get_path_types [KeyOrIndex.key "a".toList, KeyOrIndex.index 7]).length = 2 ∧
      (get_path_types [KeyOrIndex.key "a".toList, KeyOrIndex.index 7])[1]? =
        some PathType.ArrayIndex ∧
      (get_path_types [KeyOrIndex.key "a".toList, KeyOrIndex.index 7])[0]? =
        some PathType.ObjetKey :=
  ⟨get_path_types_spec.1 _, get_path_types_spec.2.1 _ 1 7 (by decide),
    get_path_types_spec.2.2.1 _ 0 "a".toList (by decide)⟩

/-! ## `parse_json` -/

theorem convert_path_type (x : KeyOrIndex) : convert x.path_type x = Except.ok x.arg := by
  cases x <;> rfl

theorem make_tuple_eq (r : List KeyOrIndex) :
    ∀ Is : List Nat, (∀ i ∈ Is, i < r.length) →
      make_tuple (get_path_types r) r Is =
        Except.ok (Is.map (fun i => (r.getD i KeyOrIndex.default).arg)) := by
  intro Is
  induction Is with
  | nil => intro _; simp [make_tuple]
  | cons i Is ih =>
    intro h
    have hi : i < r.length := h i (by simp)
    have ht : (get_path_types r).getD i PathType.ObjetKey =
        (r.getD i KeyOrIndex.default).path_type := by
      simp [get_path_types_eq_map, List.getD_eq_getElem?_getD, List.getElem?_map,
        List.getElem?_eq_getElem hi]
    simp only [make_tuple, ht, convert_path_type, ih (fun j hj => h j (by simp [hj])),
      List.map_cons]

theorem map_range_getD (r : List KeyOrIndex) :
    (List.range r.length).map (fun i => (r.getD i KeyOrIndex.default).arg) =
      r.map KeyOrIndex.arg := by
  apply List.ext_getElem
  · simp
  · intro i h1 h2
    have hi : i < r.length := by simpa using h2
    simp [List.getD_eq_getElem?_getD, List.getElem?_eq_getElem hi]

/-- C17: for every text on which `parse_json_paths` succeeds, `parse_json` succeeds
and yields a tuple of the same length that holds, at each position, the key text of a
`Key` segment or the number of an `Index` segment; no `convert` is instantiated on
the wrong alternative. -/
theorem parse_json_spec (text : List Char) (r : List KeyOrIndex)
    (h : parse_json_paths text = Except.ok r) :
    parse_json text = Except.ok (r.map KeyOrIndex.arg) ∧
      (r.map KeyOrIndex.arg).length = r.length ∧
      ∀ i, i < r.length →
        convert ((get_path_types r).getD i PathType.ObjetKey) (r.getD i KeyOrIndex.default) =
          Except.ok (r.getD i KeyOrIndex.default).arg := by
  obtain ⟨_, _, _, hlen⟩ := parse_ok_loop text r h
  refine ⟨?_, by simp, ?_⟩
  · unfold parse_json parse_json_impl
    simp only [h]
    rw [← hlen, make_tuple_eq r _ (fun i hi => by simpa using hi), map_range_getD]
  · intro i hi
    have ht : (get_path_types r).getD i PathType.ObjetKey =
        (r.getD i KeyOrIndex.default).path_type := by
      simp [get_path_types_eq_map, List.getD_eq_getElem?_getD, List.getElem?_map,
        List.getElem?_eq_getElem hi]
    rw [ht, convert_path_type]

/-- C17 at the path `"foo.bar.1st[1][02][30].values[1][2]"` of the test suite. -/
theorem parse_json_spec_witness :
    parse_json "foo.bar.1st[1][02][30].values[1][2]".toList =
      Except.ok [PathArg.text "foo".toList, PathArg.text "bar".toList,
        PathArg.text "1st".toList, PathArg.pos 1, PathArg.pos 2, PathArg.pos 30,
        PathArg.text "values".toList, PathArg.pos 1, PathArg.pos 2] :=
  (parse_json_spec "foo.bar.1st[1][02][30].values[1][2]".toList
    [KeyOrIndex.key "foo".toList, KeyOrIndex.key "bar".toList, KeyOrIndex.key "1st".toList,
      KeyOrIndex.index 1, KeyOrIndex.index 2, KeyOrIndex.index 30,
      KeyOrIndex.key "values".toList, KeyOrIndex.index 1, KeyOrIndex.index 2]
    (by decide)).1

/-! ## Index segments and closing brackets -/

theorem index_count_append (a b : List KeyOrIndex) :
    index_count (a ++ b) = index_count a + index_count b := by
  simp [index_count, List.countP_append]

theorem view_flush_index_count (size : Nat) (pending : List Char) (out out1 : List KeyOrIndex)
    (h : view_flush size pending out = Except.ok out1) :
    index_count out1 = index_count out := by
  rcases view_flush_ok size pending out out1 h with ⟨_, h1⟩ | ⟨_, _, h1⟩
  · rw [h1]
  · rw [h1, index_count_append]
    simp [index_count, holds_index]

/-- The loop has emitted one `Index` per `']'` it has read. -/
theorem view_loop_index_count (size : Nat) (text : List Char) (v : View)
    (h : view_loop size text view_init = Except.ok v) :
    index_count v.out = text.count ']' := by
  have := view_loop_induct_read size (fun p v => index_count v.out = p.count ']')
    (by
      intro p c v v1 hp hs
      rw [List.count_append]
      rcases view_step_ok size c v v1 hs with ⟨hc, _, _, _, hf⟩ | ⟨hc, _, _, _, hf⟩ |
        ⟨hc, _, _, _, n, _, he⟩ | ⟨_, _, h3, _, _, ho⟩
      · rw [view_flush_index_count size _ _ _ hf, hp, hc]
        simp
      · rw [view_flush_index_count size _ _ _ hf, hp, hc]
        simp
      · rw [(emit_ok size _ _ _ he).2, index_count_append, hp, hc]
        simp [index_count, holds_index]
      · rw [ho, hp]
        simp [List.count_singleton, Ne.symm h3])
    text [] view_init v (by simp [view_init, index_count]) h
  simpa using this

/-- The result of `parse_json_paths` on a text of the grammar. -/
theorem parse_path_segments (s0 : List Char) (items : List PathItem)
    (h0 : is_segment s0) (hw : ∀ it ∈ items, it.wf ∧ it.in_range) :
    parse_json_paths (s0 ++ items_text items) =
      Except.ok (KeyOrIndex.key s0 :: items.map PathItem.segment) := by
  have hsize := count_json_paths_path s0 items h0 (fun it hit => (hw it hit).1)
  obtain ⟨v1, h1, h2⟩ := view_loop_items (1 + items.length) items
    { pending := s0, is_array := false, out := [] } hw rfl
    (by simp [View.flushed, h0.1])
  rw [parse_json_paths_view]
  unfold view_parse view_text
  rw [hsize, view_loop_run _ _ s0 view_init h0.2]
  simp only [view_init, List.nil_append, h1, h2]
  simp [View.flushed, h0.1]
  omega

/-! ## Stores and the size of the array -/

/-- C18 at `"foo[1]bar"`: the array has `count_json_paths = 2` slots; the loop ends
with `count = 2` and `start = 6 < 9`, so the trailing flush executes
`result[count++] = text.substr(start)` with `count` equal to the size of the array. -/
theorem scan_text_stores_past_end :
    count_json_paths "foo[1]bar".toList = 2 ∧
      scan_loop "foo[1]bar".toList "foo[1]bar".toList 0 (scan_init "foo[1]bar".toList) =
        Except.ok { result := [KeyOrIndex.key "foo".toList, KeyOrIndex.index 1]
                    count := 2
                    start := 6
                    is_array := false } ∧
      scan_text "foo[1]bar".toList = Except.error Fault.arrayBoundsError := by
  decide

/-! ## The evaluator -/

theorem lookup_chain_fold_error {R E : Type} (at_ : R → PathArg → Except E R) (e : E) :
    ∀ keys : List PathArg,
      keys.foldl
        (fun acc x =>
          match acc with
          | Except.error e => Except.error e
          | Except.ok node => at_ node x)
        (Except.error e) = Except.error e := by
  intro keys
  induction keys with
  | nil => rfl
  | cons x keys ih => simpa using ih

/-- The loop of `query_json` computes the chain of lookups. -/
theorem for_each_at_chain {R E : Type} (at_ : R → PathArg → Except E R) :
    ∀ (keys : List PathArg) (root : R),
      for_each_at at_ root keys = lookup_chain at_ root keys := by
  intro keys
  induction keys with
  | nil => intro root; rfl
  | cons x keys ih =>
    intro root
    unfold lookup_chain
    simp only [for_each_at, List.foldl_cons]
    cases hx : at_ root x with
    | error e => simp only [lookup_chain_fold_error]
    | ok node => exact ih node

theorem for_each_at_concat {R E : Type} (at_ : R → PathArg → Except E R) :
    ∀ (p q : List PathArg) (root : R),
      for_each_at at_ root (p ++ q) =
        match for_each_at at_ root p with
        | Except.error e => Except.error e
        | Except.ok node => for_each_at at_ node q := by
  intro p
  induction p with
  | nil => intro q root; rfl
  | cons x p ih =>
    intro q root
    simp only [List.cons_append, for_each_at]
    cases at_ root x with
    | error e => rfl
    | ok node => exact ih q node

/-- The mutable walk refers, step by step, to the node the const walk reaches. -/
theorem ref_walk_target :
    ∀ (keys : List PathArg) (ref0 : Ref),
      (match for_each_at Ref.at_arg ref0 keys with
        | Except.error e => Except.error e
        | Except.ok ref => Except.ok ref.target) =
      for_each_at Value.at_arg ref0.target keys := by
  intro keys
  induction keys with
  | nil => intro ref0; rfl
  | cons x keys ih =>
    intro ref0
    simp only [for_each_at, Ref.at_arg]
    cases hx : ref0.target.at_arg x with
    | error e => rfl
    | ok child => exact ih _

/-- The two overloads of `query_json` fail alike and reach the same node. -/
theorem query_json_target (json : Value) (text : List Char) :
    (match query_json json text with
      | Except.error e => Except.error e
      | Except.ok ref => Except.ok ref.target) =
    query_json_const json text := by
  unfold query_json query_json_const
  cases parse_json text with
  | error e => rfl
  | ok keys =>
    have := ref_walk_target keys (Ref.root json)
    simp only [Ref.root] at this ⊢
    rw [← this]
    cases for_each_at Ref.at_arg { target := json, assign := fun w => w } keys <;> rfl

/-- C12: for every tree value and every parsed path, `query_json` (either overload)
returns what the lookups applied in order from the root return,
`root.at(s1).at(s2)...at(sn)`, a text element being looked up by key and a number by
index. -/
theorem query_json_lookup_chain (json : Value) (text : List Char) (keys : List PathArg)
    (hp : parse_json text = Except.ok keys) :
    (query_json_const json text =
        match lookup_chain Value.at_arg json keys with
        | Except.error e => Except.error (QueryFault.lookup e)
        | Except.ok node => Except.ok node) ∧
      ((match query_json json text with
          | Except.error e => Except.error e
          | Except.ok ref => Except.ok ref.target) =
        match lookup_chain Value.at_arg json keys with
        | Except.error e => Except.error (QueryFault.lookup e)
        | Except.ok node => Except.ok node) ∧
      (∀ (v : Value) (key : List Char), v.at_arg (PathArg.text key) = v.at_key key) ∧
      (∀ (v : Value) (n : Nat), v.at_arg (PathArg.pos n) = v.at_index n) := by
  have hc : query_json_const json text =
      match lookup_chain Value.at_arg json keys with
      | Except.error e => Except.error (QueryFault.lookup e)
      | Except.ok node => Except.ok node := by
    unfold query_json_const
    simp only [hp, for_each_at_chain]
  exact ⟨hc, by rw [query_json_target, hc], fun _ _ => rfl, fun _ _ => rfl⟩

/-- C12 at the tree of the test suite: `foo.users[0].id` yields the node holding 1,
the value of `root.at("foo").at("users").at(0).at("id")`. -/
theorem query_json_lookup_chain_witness :
    parse_json "foo.users[0].id".toList =
        Except.ok [PathArg.text "foo".toList, PathArg.text "users".toList, PathArg.pos 0,
          PathArg.text "id".toList] ∧
      query_json_const sample_tree "foo.users[0].id".toList = Except.ok (Value.int64 1) ∧
      lookup_chain Value.at_arg sample_tree
          [PathArg.text "foo".toList, PathArg.text "users".toList, PathArg.pos 0,
            PathArg.text "id".toList] = Except.ok (Value.int64 1) :=
  ⟨by decide,
    (query_json_lookup_chain sample_tree "foo.users[0].id".toList
      [PathArg.text "foo".toList, PathArg.text "users".toList, PathArg.pos 0,
        PathArg.text "id".toList] (by decide)).1.trans rfl,
    rfl⟩

/-- C19: evaluating `p ++ q` from a root is evaluating `q` from the node that
evaluating `p` reaches, it fails whenever evaluating `p` fails, and evaluating the
empty sequence returns the root; this for the lookups of the tree value, of mutable
references, and of any other cursor. -/
theorem for_each_at_append (R E : Type) (at_ : R → PathArg → Except E R) (root : R)
    (p q : List PathArg) :
    (for_each_at at_ root (p ++ q) =
        match for_each_at at_ root p with
        | Except.error e => Except.error e
        | Except.ok node => for_each_at at_ node q) ∧
      (∀ e, for_each_at at_ root p = Except.error e →
        for_each_at at_ root (p ++ q) = Except.error e) ∧
      for_each_at at_ root [] = Except.ok root := by
  refine ⟨for_each_at_concat at_ p q root, ?_, rfl⟩
  intro e he
  rw [for_each_at_concat, he]

/-- C19 at the tree of the test suite, with `p = foo.users` and `q = [0].id`, and with
a failing `p = inexistent`. -/
theorem for_each_at_append_witness :
    for_each_at Value.at_arg sample_tree
        ([PathArg.text "foo".toList, PathArg.text "users".toList] ++
          [PathArg.pos 0, PathArg.text "id".toList]) = Except.ok (Value.int64 1) ∧
      for_each_at Value.at_arg sample_tree
        ([PathArg.text "inexistent".toList] ++ [PathArg.text "key".toList]) =
          Except.error EvalFault.keyNotFound :=
  ⟨(for_each_at_append Value EvalFault Value.at_arg sample_tree
      [PathArg.text "foo".toList, PathArg.text "users".toList]
      [PathArg.pos 0, PathArg.text "id".toList]).1.trans rfl,
    (for_each_at_append Value EvalFault Value.at_arg sample_tree
      [PathArg.text "inexistent".toList] [PathArg.text "key".toList]).2.1
      EvalFault.keyNotFound rfl⟩

/-! ## References into the tree -/

theorem find_set_member (key : List Char) (w : Value) :
    ∀ (members : List (List Char × Value)) (child : Value),
      find_member key members = some child →
      find_member key (set_member key w members) = some w := by
  intro members
  induction members with
  | nil => intro child h; simp [find_member] at h
  | cons m members ih =>
    intro child h
    obtain ⟨k, c⟩ := m
    by_cases hk : k = key
    · simp [set_member, find_member, hk]
    · simp only [find_member, hk, if_false] at h
      simp only [set_member, find_member, hk, if_false]
      exact ih child h

theorem set_member_self (key : List Char) :
    ∀ (members : List (List Char × Value)) (child : Value),
      find_member key members = some child → set_member key child members = members := by
  intro members
  induction members with
  | nil => intro _ _; rfl
  | cons m members ih =>
    intro child h
    obtain ⟨k, c⟩ := m
    by_cases hk : k = key
    · simp only [find_member, hk, if_true, Option.some.injEq] at h
      simp [set_member, hk, h]
    · simp only [find_member, hk, if_false] at h
      simp only [set_member, hk, if_false]
      rw [ih child h]

theorem list_set_self {α : Type} :
    ∀ (l : List α) (n : Nat) (x : α), l[n]? = some x → l.set n x = l := by
  intro l
  induction l with
  | nil => intro n x _; rfl
  | cons a l ih =>
    intro n x h
    cases n with
    | zero =>
      simp only [List.getElem?_cons_zero, Option.some.injEq] at h
      simp [h]
    | succ n =>
      simp only [List.getElem?_cons_succ] at h
      simp [ih n x h]

/-- After an assignment through the reference that `at(x)` returned, `at(x)` returns
the assigned value. -/
theorem at_arg_set_arg (v child w : Value) (x : PathArg)
    (h : v.at_arg x = Except.ok child) : (v.set_arg x w).at_arg x = Except.ok w := by
  cases x with
  | text key =>
    cases v <;> simp only [Value.at_arg, Value.at_key] at h <;> try exact absurd h (by simp)
    rename_i members
    cases hf : find_member key members with
    | none => simp [hf] at h
    | some c =>
      simp [Value.set_arg, Value.at_arg, Value.at_key, find_set_member key w members c hf]
  | pos n =>
    cases v <;> simp only [Value.at_arg, Value.at_index] at h <;> try exact absurd h (by simp)
    rename_i elements
    cases hf : elements[n]? with
    | none => simp [hf] at h
    | some c =>
      have hn : n < elements.length := by
        by_contra hc
        rw [List.getElem?_eq_none (by omega)] at hf
        exact absurd hf (by simp)
      simp [Value.set_arg, Value.at_arg, Value.at_index, hn]

/-- Assigning through a reference the value it already holds leaves the node as it
was. -/
theorem set_arg_self (v child : Value) (x : PathArg)
    (h : v.at_arg x = Except.ok child) : v.set_arg x child = v := by
  cases x with
  | text key =>
    cases v <;> simp only [Value.at_arg, Value.at_key] at h <;> try exact absurd h (by simp)
    rename_i members
    cases hf : find_member key members with
    | none => simp [hf] at h
    | some c =>
      simp only [hf, Except.ok.injEq] at h
      subst h
      simp [Value.set_arg, set_member_self key members c hf]
  | pos n =>
    cases v <;> simp only [Value.at_arg, Value.at_index] at h <;> try exact absurd h (by simp)
    rename_i elements
    cases hf : elements[n]? with
    | none => simp [hf] at h
    | some c =>
      simp only [hf, Except.ok.injEq] at h
      subst h
      simp [Value.set_arg, list_set_self elements n c hf]

/-- What a mutable walk returns: a reference whose assignment rebuilds the start of
the walk around the assigned value, where the same walk then finds that value. -/
theorem ref_walk_assign :
    ∀ (keys : List PathArg) (ref0 ref : Ref),
      for_each_at Ref.at_arg ref0 keys = Except.ok ref →
      ∃ upd : Value → Value,
        (∀ w, ref.assign w = ref0.assign (upd w)) ∧
        (∀ w, for_each_at Value.at_arg (upd w) keys = Except.ok w) ∧
        upd ref.target = ref0.target := by
  intro keys
  induction keys with
  | nil =>
    intro ref0 ref h
    simp only [for_each_at, Except.ok.injEq] at h
    subst h
    exact ⟨fun w => w, fun _ => rfl, fun _ => rfl, rfl⟩
  | cons x keys ih =>
    intro ref0 ref h
    simp only [for_each_at, Ref.at_arg] at h
    cases hx : ref0.target.at_arg x with
    | error e => simp [hx] at h
    | ok child =>
      simp only [hx] at h
      obtain ⟨upd1, h1, h2, h3⟩ := ih _ ref h
      refine ⟨fun w => ref0.target.set_arg x (upd1 w), ?_, ?_, ?_⟩
      · intro w
        rw [h1 w]
      · intro w
        simp only [for_each_at, at_arg_set_arg ref0.target child (upd1 w) x hx]
        exact h2 w
      · simp only at h3 ⊢
        rw [h3]
        exact set_arg_self ref0.target child x hx

theorem query_json_assign (json : Value) (text : List Char) (ref : Ref)
    (h : query_json json text = Except.ok ref) :
    (∀ w, query_json_const (ref.assign w) text = Except.ok w) ∧
      ref.assign ref.target = json := by
  unfold query_json at h
  cases hp : parse_json text with
  | error e => simp [hp] at h
  | ok keys =>
    simp only [hp] at h
    cases hw : for_each_at Ref.at_arg (Ref.root json) keys with
    | error e => simp [hw] at h
    | ok ref1 =>
      simp only [hw, Except.ok.injEq] at h
      subst h
      obtain ⟨upd, h1, h2, h3⟩ := ref_walk_assign keys (Ref.root json) ref1 hw
      constructor
      · intro w
        unfold query_json_const
        simp only [hp]
        rw [h1 w]
        simp only [Ref.root, h2 w]
      · rw [h1]
        simpa [Ref.root] using h3

/-- C15: when `query_json` returns a reference, after assigning a value through that
reference a fresh lookup of the same path in the tree returns that value. -/
theorem query_json_live_handle (json : Value) (text : List Char) (ref : Ref) (w : Value)
    (h : query_json json text = Except.ok ref) :
    query_json_const (ref.assign w) text = Except.ok w :=
  (query_json_assign json text ref h).1 w

/-- An assignment through the reference that a mutable walk returns replaces, in the
tree the walk started from, the node that the lookups lead to. -/
theorem ref_walk_put :
    ∀ (keys : List PathArg) (ref0 ref : Ref),
      for_each_at Ref.at_arg ref0 keys = Except.ok ref →
      ∀ w, ref.assign w = ref0.assign (ref0.target.put keys w) := by
  intro keys
  induction keys with
  | nil =>
    intro ref0 ref h w
    simp only [for_each_at, Except.ok.injEq] at h
    subst h
    rfl
  | cons x keys ih =>
    intro ref0 ref h w
    simp only [for_each_at, Ref.at_arg] at h
    cases hx : ref0.target.at_arg x with
    | error e => simp [hx] at h
    | ok child =>
      simp only [hx] at h
      rw [ih _ ref h w]
      simp only [Value.put, hx]

theorem query_json_put (json : Value) (text : List Char) (keys : List PathArg) (ref : Ref)
    (hp : parse_json text = Except.ok keys) (h : query_json json text = Except.ok ref) :
    ∀ w, ref.assign w = json.put keys w := by
  unfold query_json at h
  simp only [hp] at h
  cases hw : for_each_at Ref.at_arg (Ref.root json) keys with
  | error e => simp [hw] at h
  | ok ref1 =>
    simp only [hw, Except.ok.injEq] at h
    subst h
    intro w
    rw [ref_walk_put keys (Ref.root json) ref1 hw w]
    rfl

/-- C16: for every tree value and every path literal, the const overload and the
mutable overload of `query_json` fail on the same inputs, with the same fault, and on
success the mutable one refers to the node the const one returns: it holds the same
value, an assignment through it replaces, in the caller's tree, the node that the
lookups of the path lead to and nothing else (`Value.put`), so that the const
overload reads the assigned value from the tree afterwards, and assigning the node
its own value leaves the tree as it was. -/
theorem query_json_overloads_agree (json : Value) (text : List Char) :
    ((match query_json json text with
        | Except.error e => Except.error e
        | Except.ok ref => Except.ok ref.target) =
      query_json_const json text) ∧
      (∀ ref, query_json json text = Except.ok ref → ref.assign ref.target = json) ∧
      (∀ ref keys, parse_json text = Except.ok keys →
        query_json json text = Except.ok ref →
        ∀ w, ref.assign w = json.put keys w ∧
          query_json_const (ref.assign w) text = Except.ok w) :=
  ⟨query_json_target json text, fun ref h => (query_json_assign json text ref h).2,
    fun ref keys hp h w =>
      ⟨query_json_put json text keys ref hp h w, (query_json_assign json text ref h).1 w⟩⟩

/-- C15 at the tree of the test suite: after `"New name"` is assigned through
`QUERY_JSON(json, foo.users[1].name)`, which referred to `"Bob"`, the lookup
`json.at("foo").at("users").at(1).at("name")` returns `"New name"`. -/
theorem query_json_live_handle_witness :
    ∃ ref, query_json sample_tree "foo.users[1].name".toList = Except.ok ref ∧
      ref.target = Value.string "Bob".toList ∧
      query_json_const (ref.assign (Value.string "New name".toList))
          "foo.users[1].name".toList = Except.ok (Value.string "New name".toList) ∧
      for_each_at Value.at_arg (ref.assign (Value.string "New name".toList))
          [PathArg.text "foo".toList, PathArg.text "users".toList, PathArg.pos 1,
            PathArg.text "name".toList] = Except.ok (Value.string "New name".toList) :=
  ⟨match query_json sample_tree "foo.users[1].name".toList with
      | Except.ok ref => ref
      | Except.error _ => Ref.root Value.null,
    rfl, rfl,
    query_json_live_handle sample_tree "foo.users[1].name".toList _
      (Value.string "New name".toList) rfl,
    rfl⟩

/-- C16 at the tree of the test suite and the path `foo.users[1].id`: both overloads
reach the node holding 2, and an assignment of 7 through the mutable reference gives
the tree in which the const overload reads 7 at that path. -/
theorem query_json_overloads_agree_witness :
    query_json_const sample_tree "foo.users[1].id".toList = Except.ok (Value.int64 2) ∧
      (match query_json sample_tree "foo.users[1].id".toList with
        | Except.error e => Except.error e
        | Except.ok ref => Except.ok ref.target) =
        (Except.ok (Value.int64 2) : Except QueryFault Value) ∧
      (match query_json sample_tree "foo.users[1].id".toList with
        | Except.error _ => Value.null
        | Except.ok ref => ref.assign ref.target) = sample_tree ∧
      (match query_json sample_tree "foo.users[1].id".toList with
        | Except.error _ => Value.null
        | Except.ok ref => ref.assign (Value.int64 7)) =
        sample_tree.put [PathArg.text "foo".toList, PathArg.text "users".toList,
          PathArg.pos 1, PathArg.text "id".toList] (Value.int64 7) ∧
      query_json_const
          (sample_tree.put [PathArg.text "foo".toList, PathArg.text "users".toList,
            PathArg.pos 1, PathArg.text "id".toList] (Value.int64 7))
          "foo.users[1].id".toList = Except.ok (Value.int64 7) :=
  ⟨rfl, (query_json_overloads_agree sample_tree "foo.users[1].id".toList).1.trans rfl,
    (query_json_overloads_agree sample_tree "foo.users[1].id".toList).2.1
      (match query_json sample_tree "foo.users[1].id".toList with
        | Except.ok ref => ref
        | Except.error _ => Ref.root Value.null) rfl,
    ((query_json_overloads_agree sample_tree "foo.users[1].id".toList).2.2
      (match query_json sample_tree "foo.users[1].id".toList with
        | Except.ok ref => ref
        | Except.error _ => Ref.root Value.null)
      [PathArg.text "foo".toList, PathArg.text "users".toList, PathArg.pos 1,
        PathArg.text "id".toList] (by decide) rfl (Value.int64 7)).1,
    rfl⟩

/-! ## Failed lookups -/

theorem find_member_some_iff (key : List Char) :
    ∀ members : List (List Char × Value),
      (∃ child, find_member key members = some child) ↔ ∃ child, (key, child) ∈ members := by
  intro members
  induction members with
  | nil => simp [find_member]
  | cons m members ih =>
    obtain ⟨k, c⟩ := m
    by_cases hk : k = key
    · subst hk
      simp only [find_member, if_true]
      exact ⟨fun _ => ⟨c, by simp⟩, fun _ => ⟨c, rfl⟩⟩
    · simp only [find_member, hk, if_false, List.mem_cons, Prod.mk.injEq]
      rw [ih]
      constructor
      · rintro ⟨child, h⟩
        exact ⟨child, Or.inr h⟩
      · rintro ⟨child, h | h⟩
        · exact absurd h.1.symm hk
        · exact ⟨child, h⟩

/-- A lookup returns a node exactly when the node can serve it. -/
theorem at_arg_ok_iff (v : Value) (x : PathArg) :
    (∃ child, v.at_arg x = Except.ok child) ↔ v.serves x := by
  cases x with
  | text key =>
    cases v with
    | object members =>
      simp only [Value.at_arg, Value.at_key, Value.serves, Value.object.injEq]
      have := find_member_some_iff key members
      constructor
      · rintro ⟨child, h⟩
        cases hf : find_member key members with
        | none => simp [hf] at h
        | some c =>
          obtain ⟨c1, hc1⟩ := this.mp ⟨c, hf⟩
          exact ⟨members, c1, rfl, hc1⟩
      · rintro ⟨ms, c1, hm, hc1⟩
        subst hm
        obtain ⟨c, hc⟩ := this.mpr ⟨c1, hc1⟩
        exact ⟨c, by simp [hc]⟩
    | _ =>
      constructor
      · rintro ⟨child, h⟩
        exact absurd h (by simp [Value.at_arg, Value.at_key])
      · rintro ⟨ms, c, hm, _⟩
        cases hm
  | pos n =>
    cases v with
    | array elements =>
      simp only [Value.at_arg, Value.at_index, Value.serves, Value.array.injEq]
      by_cases hn : n < elements.length
      · simp [List.getElem?_eq_getElem hn, hn]
      · simp [List.getElem?_eq_none (by omega : elements.length ≤ n), hn]
    | _ =>
      constructor
      · rintro ⟨child, h⟩
        exact absurd h (by simp [Value.at_arg, Value.at_index])
      · rintro ⟨es, hm, _⟩
        cases hm

theorem at_arg_fault (v : Value) (x : PathArg) (e : EvalFault)
    (h : v.at_arg x = Except.error e) :
    (∃ key, x = PathArg.text key ∧ e = EvalFault.keyNotFound) ∨
      (∃ n, x = PathArg.pos n ∧ e = EvalFault.indexOutOfRange) := by
  cases x with
  | text key =>
    left
    refine ⟨key, rfl, ?_⟩
    cases v <;> simp only [Value.at_arg, Value.at_key] at h <;>
      first
      | (simp only [Except.error.injEq] at h; exact h.symm)
      | skip
    rename_i members
    cases hf : find_member key members with
    | none =>
      simp only [hf, Except.error.injEq] at h
      exact h.symm
    | some c => simp [hf] at h
  | pos n =>
    right
    refine ⟨n, rfl, ?_⟩
    cases v <;> simp only [Value.at_arg, Value.at_index] at h <;>
      first
      | (simp only [Except.error.injEq] at h; exact h.symm)
      | skip
    rename_i elements
    cases hf : elements[n]? with
    | none =>
      simp only [hf, Except.error.injEq] at h
      exact h.symm
    | some c => simp [hf] at h

/-- The walk fails with `e` exactly when it reaches a node at which the next lookup
fails with `e`. -/
theorem walk_error_iff :
    ∀ (keys : List PathArg) (root : Value) (e : EvalFault),
      for_each_at Value.at_arg root keys = Except.error e ↔
        ∃ p1 x p2 node, keys = p1 ++ x :: p2 ∧
          for_each_at Value.at_arg root p1 = Except.ok node ∧
          node.at_arg x = Except.error e := by
  intro keys root e
  constructor
  · induction keys generalizing root with
    | nil => intro h; simp [for_each_at] at h
    | cons y keys ih =>
      intro h
      simp only [for_each_at] at h
      cases hy : root.at_arg y with
      | error e1 =>
        simp only [hy, Except.error.injEq] at h
        exact ⟨[], y, keys, root, rfl, rfl, h ▸ hy⟩
      | ok r1 =>
        simp only [hy] at h
        obtain ⟨p1, x, p2, node, hk, hw, hx⟩ := ih r1 h
        refine ⟨y :: p1, x, p2, node, by simp [hk], ?_, hx⟩
        simp only [for_each_at, hy, hw]
  · rintro ⟨p1, x, p2, node, hk, hw, hx⟩
    rw [hk, for_each_at_concat, hw]
    simp only [for_each_at, hx]

theorem at_arg_error_iff (v : Value) (x : PathArg) :
    (∃ e, v.at_arg x = Except.error e) ↔ ¬ v.serves x := by
  rw [← at_arg_ok_iff]
  cases h : v.at_arg x with
  | error e => simp
  | ok child => simp

theorem at_arg_key_fault (v : Value) (key : List Char) :
    v.at_arg (PathArg.text key) = Except.error EvalFault.keyNotFound ↔
      ¬ v.serves (PathArg.text key) := by
  rw [← at_arg_error_iff]
  constructor
  · intro h
    exact ⟨_, h⟩
  · rintro ⟨e, h⟩
    rcases at_arg_fault v _ e h with ⟨_, _, he⟩ | ⟨_, hx, _⟩
    · rw [h, he]
    · cases hx

theorem at_arg_index_fault (v : Value) (n : Nat) :
    v.at_arg (PathArg.pos n) = Except.error EvalFault.indexOutOfRange ↔
      ¬ v.serves (PathArg.pos n) := by
  rw [← at_arg_error_iff]
  constructor
  · intro h
    exact ⟨_, h⟩
  · rintro ⟨e, h⟩
    rcases at_arg_fault v _ e h with ⟨_, hx, _⟩ | ⟨_, _, he⟩
    · cases hx
    · rw [h, he]

theorem query_json_const_eq (json : Value) (text : List Char) (keys : List PathArg)
    (hp : parse_json text = Except.ok keys) :
    query_json_const json text =
      match for_each_at Value.at_arg json keys with
      | Except.error e => Except.error (QueryFault.lookup e)
      | Except.ok node => Except.ok node := by
  unfold query_json_const
  simp only [hp]

theorem query_json_const_fault (json : Value) (text : List Char) (keys : List PathArg)
    (hp : parse_json text = Except.ok keys) (e : EvalFault) :
    query_json_const json text = Except.error (QueryFault.lookup e) ↔
      for_each_at Value.at_arg json keys = Except.error e := by
  rw [query_json_const_eq json text keys hp]
  cases for_each_at Value.at_arg json keys <;> simp

theorem query_json_const_fails (json : Value) (text : List Char) (keys : List PathArg)
    (hp : parse_json text = Except.ok keys) :
    (∃ e, query_json_const json text = Except.error e) ↔
      ∃ e, for_each_at Value.at_arg json keys = Except.error e := by
  rw [query_json_const_eq json text keys hp]
  cases for_each_at Value.at_arg json keys <;> simp

theorem query_json_fails_alike (json : Value) (text : List Char) :
    (∃ e, query_json json text = Except.error e) ↔
      ∃ e, query_json_const json text = Except.error e := by
  rw [← query_json_target]
  cases query_json json text <;> simp

/-- C13: for every tree value and parsed path, `query_json` (either overload) fails
if and only if at some element of the path the node reached so far cannot serve it;
it fails with `KeyNotFound` exactly when that element is a key and the node is not an
object or lacks the key, with `IndexOutOfRange` exactly when it is an index and the
node is not an array or the index is not below its length. -/
theorem query_json_fails_iff (json : Value) (text : List Char) (keys : List PathArg)
    (hp : parse_json text = Except.ok keys) :
    ((∃ e, query_json_const json text = Except.error e) ↔
        ∃ p1 x p2 node, keys = p1 ++ x :: p2 ∧
          for_each_at Value.at_arg json p1 = Except.ok node ∧ ¬ node.serves x) ∧
      ((∃ e, query_json json text = Except.error e) ↔
        ∃ p1 x p2 node, keys = p1 ++ x :: p2 ∧
          for_each_at Value.at_arg json p1 = Except.ok node ∧ ¬ node.serves x) ∧
      (query_json_const json text = Except.error (QueryFault.lookup EvalFault.keyNotFound) ↔
        ∃ p1 key p2 node, keys = p1 ++ PathArg.text key :: p2 ∧
          for_each_at Value.at_arg json p1 = Except.ok node ∧
          ¬ node.serves (PathArg.text key)) ∧
      (query_json_const json text =
          Except.error (QueryFault.lookup EvalFault.indexOutOfRange) ↔
        ∃ p1 n p2 node, keys = p1 ++ PathArg.pos n :: p2 ∧
          for_each_at Value.at_arg json p1 = Except.ok node ∧
          ¬ node.serves (PathArg.pos n)) := by
  have h1 : (∃ e, query_json_const json text = Except.error e) ↔
      ∃ p1 x p2 node, keys = p1 ++ x :: p2 ∧
        for_each_at Value.at_arg json p1 = Except.ok node ∧ ¬ node.serves x := by
    rw [query_json_const_fails json text keys hp]
    constructor
    · rintro ⟨e, h⟩
      obtain ⟨p1, x, p2, node, hk, hw, hx⟩ := (walk_error_iff keys json e).mp h
      exact ⟨p1, x, p2, node, hk, hw, (at_arg_error_iff node x).mp ⟨e, hx⟩⟩
    · rintro ⟨p1, x, p2, node, hk, hw, hx⟩
      obtain ⟨e, he⟩ := (at_arg_error_iff node x).mpr hx
      exact ⟨e, (walk_error_iff keys json e).mpr ⟨p1, x, p2, node, hk, hw, he⟩⟩
  refine ⟨h1, (query_json_fails_alike json text).trans h1, ?_, ?_⟩
  · rw [query_json_const_fault json text keys hp, walk_error_iff]
    constructor
    · rintro ⟨p1, x, p2, node, hk, hw, hx⟩
      rcases at_arg_fault node x _ hx with ⟨key, hxk, _⟩ | ⟨_, _, he⟩
      · subst hxk
        exact ⟨p1, key, p2, node, hk, hw, (at_arg_key_fault node key).mp hx⟩
      · cases he
    · rintro ⟨p1, key, p2, node, hk, hw, hx⟩
      exact ⟨p1, _, p2, node, hk, hw, (at_arg_key_fault node key).mpr hx⟩
  · rw [query_json_const_fault json text keys hp, walk_error_iff]
    constructor
    · rintro ⟨p1, x, p2, node, hk, hw, hx⟩
      rcases at_arg_fault node x _ hx with ⟨_, _, he⟩ | ⟨n, hxn, _⟩
      · cases he
      · subst hxn
        exact ⟨p1, n, p2, node, hk, hw, (at_arg_index_fault node n).mp hx⟩
    · rintro ⟨p1, n, p2, node, hk, hw, hx⟩
      exact ⟨p1, _, p2, node, hk, hw, (at_arg_index_fault node n).mpr hx⟩

/-- C13 at the tree of the test suite: the path `inexistent.key.name` fails with
`KeyNotFound`, the root having no member `inexistent`. -/
theorem query_json_fails_iff_witness :
    parse_json "inexistent.key.name".toList =
        Except.ok [PathArg.text "inexistent".toList, PathArg.text "key".toList,
          PathArg.text "name".toList] ∧
      ¬ sample_tree.serves (PathArg.text "inexistent".toList) ∧
      query_json_const sample_tree "inexistent.key.name".toList =
        Except.error (QueryFault.lookup EvalFault.keyNotFound) :=
  have hns : ¬ sample_tree.serves (PathArg.text "inexistent".toList) :=
    (at_arg_key_fault sample_tree "inexistent".toList).mp rfl
  ⟨by decide, hns,
    (query_json_fails_iff sample_tree "inexistent.key.name".toList
      [PathArg.text "inexistent".toList, PathArg.text "key".toList,
        PathArg.text "name".toList] (by decide)).2.2.1.mpr
      ⟨[], "inexistent".toList, [PathArg.text "key".toList, PathArg.text "name".toList],
        sample_tree, rfl, rfl, hns⟩⟩

/-! ## Typed queries -/

theorem as_scalar_ok_iff (T : ScalarType) (v : Value) (x : T.payload) :
    v.as_scalar T = Except.ok x ↔ v = T.node x := by
  cases T <;> cases v <;> simp [Value.as_scalar, ScalarType.node]

theorem scalar_type_node (T : ScalarType) (x : T.payload) :
    (T.node x).scalar_type = some T := by
  cases T <;> rfl

theorem as_scalar_mismatch (T : ScalarType) (v : Value) (h : v.scalar_type ≠ some T) :
    v.as_scalar T = Except.error EvalFault.typeMismatch := by
  cases T <;> cases v <;> simp [Value.as_scalar, Value.scalar_type] at h ⊢

/-- C14: the typed query succeeds with payload `x` exactly when the untyped query
succeeds and the node found is the scalar of the requested type with payload `x`; it
fails with a type mismatch when the node exists and has another runtime type, and
with the fault of the untyped query when that one fails. -/
theorem query_json_as_spec (T : ScalarType) (json : Value) (text : List Char) :
    (∀ x : T.payload, query_json_as T json text = Except.ok x ↔
        ∃ ref, query_json json text = Except.ok ref ∧
          ref.target.scalar_type = some T ∧ ref.target = T.node x) ∧
      (∀ ref, query_json json text = Except.ok ref → ref.target.scalar_type ≠ some T →
        query_json_as T json text = Except.error (QueryFault.lookup EvalFault.typeMismatch)) ∧
      (∀ e, query_json json text = Except.error e →
        query_json_as T json text = Except.error e) := by
  refine ⟨?_, ?_, ?_⟩
  · intro x
    unfold query_json_as
    cases hq : query_json json text with
    | error e => simp
    | ok ref =>
      simp only [Except.ok.injEq, exists_eq_left']
      cases ha : ref.target.as_scalar T with
      | error e =>
        constructor
        · intro h
          exact absurd h (by simp)
        · rintro ⟨_, hn⟩
          rw [(as_scalar_ok_iff T ref.target x).mpr hn] at ha
          exact absurd ha (by simp)
      | ok y =>
        have hy := (as_scalar_ok_iff T ref.target y).mp ha
        simp only [Except.ok.injEq]
        constructor
        · intro hxy
          subst hxy
          exact ⟨hy ▸ scalar_type_node T y, hy⟩
        · rintro ⟨_, hn⟩
          have := (as_scalar_ok_iff T ref.target x).mpr hn
          rw [ha] at this
          simpa using this
  · intro ref hq hne
    unfold query_json_as
    simp only [hq, as_scalar_mismatch T ref.target hne]
  · intro e hq
    unfold query_json_as
    simp only [hq]

/-- C14 at the tree of the test suite: `foo.users[0].name` as a string is `"Alice"`,
`foo.users[1].name` as an int64 is a type mismatch, the node being a string. -/
theorem query_json_as_spec_witness :
    query_json_as ScalarType.string sample_tree "foo.users[0].name".toList =
        Except.ok "Alice".toList ∧
      query_json_as ScalarType.int64 sample_tree "foo.users[1].name".toList =
        Except.error (QueryFault.lookup EvalFault.typeMismatch) :=
  ⟨((query_json_as_spec ScalarType.string sample_tree "foo.users[0].name".toList).1
      "Alice".toList).mpr
      ⟨match query_json sample_tree "foo.users[0].name".toList with
        | Except.ok ref => ref
        | Except.error _ => Ref.root Value.null, rfl, rfl, rfl⟩,
    (query_json_as_spec ScalarType.int64 sample_tree "foo.users[1].name".toList).2.1
      (match query_json sample_tree "foo.users[1].name".toList with
        | Except.ok ref => ref
        | Except.error _ => Ref.root Value.null) rfl (by decide)⟩

/-! ## The runs of a text and the language the parser accepts -/

/-- What a successful loop and trailing flush return: the segments already stored,
then the segments of the runs still to be marked off. -/
theorem view_loop_runs (size : Nat) :
    ∀ (rest : List Char) (v v1 : View) (r : List KeyOrIndex),
      view_loop size rest v = Except.ok v1 →
      view_flush size v1.pending v1.out = Except.ok r →
      r = v.out ++ (segment_runs v.pending rest).map run_segment := by
  intro rest
  induction rest with
  | nil =>
    intro v v1 r h hf
    simp only [view_loop, Except.ok.injEq] at h
    subst h
    rcases view_flush_ok size _ _ _ hf with ⟨hp, hr⟩ | ⟨hp, _, hr⟩
    · simp [segment_runs, hp, hr]
    · simp [segment_runs, hp, hr, run_segment]
  | cons c rest ih =>
    intro v v1 r h hf
    simp only [view_loop] at h
    cases hs : view_step size c v with
    | error e => simp [hs] at h
    | ok v2 =>
      simp only [hs] at h
      have hr := ih v2 v1 r h hf
      rcases view_step_ok size c v v2 hs with ⟨hc, _, hp, _, hfl⟩ | ⟨hc, _, hp, _, hfl⟩ |
        ⟨hc, _, hp, _, n, hn, he⟩ | ⟨h1, h2, h3, hp, _, ho⟩
      · rw [hr, hp]
        rcases view_flush_ok size _ _ _ hfl with ⟨hq, ho⟩ | ⟨hq, _, ho⟩
        · simp [segment_runs, hc, hq, ho]
        · simp [segment_runs, hc, hq, ho, run_segment]
      · rw [hr, hp]
        rcases view_flush_ok size _ _ _ hfl with ⟨hq, ho⟩ | ⟨hq, _, ho⟩
        · simp [segment_runs, hc, hq, ho]
        · simp [segment_runs, hc, hq, ho, run_segment]
      · have hd := (str_to_index_ok_iff v.pending).mp ⟨n, hn⟩
        rw [str_to_index_digits v.pending hd, Except.ok.injEq] at hn
        rw [hr, hp, (emit_ok size _ _ _ he).2, hc, ← hn]
        simp [segment_runs, run_segment]
      · rw [hr, hp, ho]
        simp [segment_runs, h1, h2, h3]

/-- The result of `parse_json_paths` is the segments of the runs of the text. -/
theorem parse_ok_runs (text : List Char) (r : List KeyOrIndex)
    (h : parse_json_paths text = Except.ok r) :
    r = (segment_runs [] text).map run_segment := by
  obtain ⟨v, hloop, hflush, _⟩ := parse_ok_loop text r h
  simpa [view_init] using view_loop_runs _ text view_init v r hloop hflush

theorem foldl_bracket_free (d : List Char) (h : ∀ c ∈ d, c ≠ '[' ∧ c ≠ ']') :
    ∀ b : Bool,
      d.foldl (fun b c => if c = '[' then true else if c = ']' then false else b) b = b := by
  induction d with
  | nil => intro b; rfl
  | cons c d ih =>
    intro b
    have hc := h c (by simp)
    simp only [List.foldl_cons, hc.1, hc.2, if_false]
    exact ih (fun x hx => h x (by simp [hx])) b

theorem bracket_open_after_open (a d : List Char) (h : ∀ c ∈ d, c ≠ '[' ∧ c ≠ ']') :
    bracket_open (a ++ '[' :: d) = true := by
  unfold bracket_open
  rw [List.foldl_append, List.foldl_cons]
  simp only [if_true]
  exact foldl_bracket_free d h true

theorem last_open_unique :
    ∀ (a a1 d d1 : List Char), a ++ '[' :: d = a1 ++ '[' :: d1 → '[' ∉ d → '[' ∉ d1 →
      d = d1 := by
  intro a
  induction a with
  | nil =>
    intro a1 d d1 h hd _
    cases a1 with
    | nil => simpa using h
    | cons x a2 =>
      simp only [List.nil_append, List.cons_append, List.cons.injEq] at h
      exact absurd (by rw [h.2]; simp) hd
  | cons y a ih =>
    intro a1 d d1 h hd hd1
    cases a1 with
    | nil =>
      simp only [List.nil_append, List.cons_append, List.cons.injEq] at h
      exact absurd (by rw [← h.2]; simp) hd1
    | cons x a2 =>
      simp only [List.cons_append, List.cons.injEq] at h
      exact ih a2 d d1 h.2 hd hd1

theorem view_loop_snoc (size : Nat) (p : List Char) (c : Char) (v v2 : View)
    (hp : view_loop size p view_init = Except.ok v)
    (hs : view_step size c v = Except.ok v2) :
    view_loop size (p ++ [c]) view_init = Except.ok v2 := by
  rw [view_loop_append, hp]
  simp only [view_loop, hs]

/-- On a text of the accepted shape the loop and the trailing flush go through and
fill the array. -/
theorem view_loop_accepts (size : Nat) (text : List Char)
    (h1 : ∀ pre post, text = pre ++ ']' :: post →
      ∃ a d, pre = a ++ '[' :: d ∧ ∀ c ∈ d, is_decimal_digit c = true)
    (h2 : ∀ pre c post, text = pre ++ c :: post → c = '.' ∨ c = '[' →
      bracket_open pre = false) :
    ∀ (rest p : List Char) (v : View), text = p ++ rest →
      view_loop size p view_init = Except.ok v →
      v.out.length + (segment_runs v.pending rest).length = size →
      ∃ v1 r, view_loop size rest v = Except.ok v1 ∧
        view_flush size v1.pending v1.out = Except.ok r ∧ r.length = size := by
  intro rest
  induction rest with
  | nil =>
    intro p v _ _ hcount
    refine ⟨v, v.flushed, rfl, ?_, ?_⟩
    · apply view_flush_flushed
      unfold View.flushed
      by_cases hp : v.pending = []
      · simp [segment_runs, hp] at hcount ⊢
        omega
      · simp [segment_runs, hp] at hcount ⊢
        omega
    · unfold View.flushed
      by_cases hp : v.pending = []
      · simp [segment_runs, hp] at hcount ⊢
        omega
      · simp [segment_runs, hp] at hcount ⊢
        omega
  | cons c rest ih =>
    intro p v ht hp hcount
    have hnext : text = (p ++ [c]) ++ rest := by simp [ht]
    have harr := view_loop_is_array size p v hp
    by_cases hc : c = '.' ∨ c = '['
    · have ha : v.is_array = false := by rw [harr]; exact h2 p c rest ht hc
      have hruns : segment_runs v.pending (c :: rest) =
          (if v.pending = [] then [] else [(false, v.pending)]) ++ segment_runs [] rest := by
        simp [segment_runs, hc]
      rw [hruns] at hcount
      have hfl : view_flush size v.pending v.out = Except.ok v.flushed := by
        apply view_flush_flushed
        unfold View.flushed
        by_cases hq : v.pending = []
        · simp [hq] at hcount ⊢
          omega
        · simp [hq] at hcount ⊢
          omega
      have hstep : view_step size c v =
          Except.ok (View.mk [] (decide (c = '[')) v.flushed) := by
        rcases hc with hc | hc
        · subst hc
          simp [view_step, ha, hfl]
        · subst hc
          simp [view_step, ha, hfl]
      obtain ⟨v1, r, hl, hf, hr⟩ := ih (p ++ [c]) _ hnext (view_loop_snoc size p c v _ hp hstep)
        (by
          unfold View.flushed
          by_cases hq : v.pending = []
          · simp [hq] at hcount ⊢
            omega
          · simp [hq] at hcount ⊢
            omega)
      exact ⟨v1, r, by simp only [view_loop, hstep, hl], hf, hr⟩
    · push_neg at hc
      by_cases hcl : c = ']'
      · subst hcl
        obtain ⟨a, d, hpa, hd⟩ := h1 p rest ht
        have hdb : ∀ x ∈ d, x ≠ '[' ∧ x ≠ ']' := fun x hx =>
          let hn := not_delimiter x (digit_not_delimiter x (hd x hx))
          ⟨hn.2.1, hn.2.2⟩
        have ha : v.is_array = true := by
          rw [harr, hpa]
          exact bracket_open_after_open a d hdb
        obtain ⟨a1, hpa1⟩ := view_loop_open_bracket size p v hp ha
        have hpend : v.pending = d := by
          have hk := (view_loop_keys size p v hp).1
          refine (last_open_unique a a1 d v.pending (hpa ▸ hpa1) ?_ ?_).symm
          · exact fun hm => (hdb _ hm).1 rfl
          · exact fun hm => (not_delimiter _ (hk _ hm)).2.1 rfl
        have hidx := str_to_index_digits v.pending (hpend ▸ hd)
        have hruns : segment_runs v.pending (']' :: rest) =
            (true, v.pending) :: segment_runs [] rest := by
          simp [segment_runs]
        rw [hruns] at hcount
        simp only [List.length_cons] at hcount
        have hlt : v.out.length < size := by omega
        have hstep : view_step size ']' v =
            Except.ok (View.mk [] false
              (v.out ++ [KeyOrIndex.index (decimal_value v.pending % SIZE_MOD)])) := by
          simp [view_step, ha, hidx, emit, hlt]
        obtain ⟨v1, r, hl, hf, hr⟩ := ih (p ++ [']']) _ hnext
          (view_loop_snoc size p ']' v _ hp hstep) (by simp; omega)
        exact ⟨v1, r, by simp only [view_loop, hstep, hl], hf, hr⟩
      · have hstep := view_step_other size c v (is_delimiter_false c hc.1 hc.2 hcl)
        have hruns : segment_runs v.pending (c :: rest) =
            segment_runs (v.pending ++ [c]) rest := by
          simp [segment_runs, hc.1, hc.2, hcl]
        rw [hruns] at hcount
        obtain ⟨v1, r, hl, hf, hr⟩ := ih (p ++ [c]) _ hnext
          (view_loop_snoc size p c v _ hp hstep) hcount
        exact ⟨v1, r, by simp only [view_loop, hstep, hl], hf, hr⟩

theorem accepted_shape_of_ok (text : List Char) (r : List KeyOrIndex)
    (h : parse_json_paths text = Except.ok r) : AcceptedShape text := by
  obtain ⟨vf, hloop, _, hlen⟩ := parse_ok_loop text r h
  refine ⟨?_, ?_, ?_⟩
  · intro pre post ht
    rw [ht] at hloop
    obtain ⟨v, v1, hpre, hstep, _⟩ := view_loop_split _ pre post ']' view_init vf hloop
    rcases view_step_ok _ _ v v1 hstep with ⟨hc, _⟩ | ⟨hc, _⟩ | ⟨_, ha, _, _, n, hn, _⟩ |
      ⟨_, _, hc, _⟩
    · exact absurd hc (by decide)
    · exact absurd hc (by decide)
    · obtain ⟨a, hpa⟩ := view_loop_open_bracket _ pre v hpre ha
      exact ⟨a, v.pending, hpa, (str_to_index_ok_iff v.pending).mp ⟨n, hn⟩⟩
    · exact absurd rfl hc
  · intro pre c post ht hc
    rw [ht] at hloop
    obtain ⟨v, v1, hpre, hstep, _⟩ := view_loop_split _ pre post c view_init vf hloop
    rw [← view_loop_is_array _ pre v hpre]
    rcases view_step_ok _ _ v v1 hstep with ⟨_, ha, _⟩ | ⟨_, ha, _⟩ | ⟨hc3, _⟩ |
      ⟨h1, h2, _⟩
    · exact ha
    · exact ha
    · rcases hc with hc | hc <;> rw [hc] at hc3 <;> exact absurd hc3 (by decide)
    · rcases hc with hc | hc
      · exact absurd hc h1
      · exact absurd hc h2
  · have hr := parse_ok_runs text r h
    rw [← count_json_paths_count, ← hlen, hr]
    simp

theorem ok_of_accepted_shape (text : List Char) (h : AcceptedShape text) :
    ∃ r, parse_json_paths text = Except.ok r := by
  obtain ⟨h1, h2, h3⟩ := h
  obtain ⟨v1, r, hl, hf, hr⟩ := view_loop_accepts (count_json_paths text) text h1 h2 text []
    view_init (by simp) rfl (by simp [view_init, h3, count_json_paths_count])
  refine ⟨r, ?_⟩
  rw [parse_json_paths_view]
  unfold view_parse view_text
  simp [hl, hf, hr]

/-- C2 (amended): `parse_json_paths` succeeds on a text only if the text is not
empty, every `']'` in it is immediately preceded by a run of decimal digits (possibly
empty) that is itself immediately preceded by a `'['`, no `'.'` or `'['` stands
inside an open bracket, and the number of runs a left-to-right reading marks off
(one for each non-empty run of other characters that a `'.'`, a `'['` or the end of
the text ends, one for each `']'`) is `1 + #'.' + #'['`; on a text that does not end
inside an open bracket these conditions are also sufficient. -/
theorem parse_json_paths_accepts_only (text : List Char) :
    (∀ r, parse_json_paths text = Except.ok r → text ≠ [] ∧ AcceptedShape text) ∧
      (bracket_open text = false → AcceptedShape text →
        ∃ r, parse_json_paths text = Except.ok r) := by
  constructor
  · intro r h
    refine ⟨?_, accepted_shape_of_ok text r h⟩
    rintro rfl
    have he : parse_json_paths [] = Except.error Fault.syntaxError := by decide
    rw [he] at h
    exact absurd h (by simp)
  · intro _ h
    exact ok_of_accepted_shape text h

/-- The amended C2 at `"foo.bar[1].baz"`, which is accepted and has the shape, and at
`"a..b"`, `".a"` and `"a.[1]"`, which have the bracket conditions but not the count
and are rejected. -/
theorem parse_json_paths_accepts_only_witness :
    parse_json_paths "foo.bar[1].baz".toList =
        Except.ok [KeyOrIndex.key "foo".toList, KeyOrIndex.key "bar".toList,
          KeyOrIndex.index 1, KeyOrIndex.key "baz".toList] ∧
      AcceptedShape "foo.bar[1].baz".toList ∧
      (∃ r, parse_json_paths "foo.bar[1].baz".toList = Except.ok r) ∧
      ¬ AcceptedShape "a..b".toList ∧ Fails (parse_json_paths "a..b".toList) ∧
      ¬ AcceptedShape ".a".toList ∧ Fails (parse_json_paths ".a".toList) ∧
      ¬ AcceptedShape "a.[1]".toList ∧ Fails (parse_json_paths "a.[1]".toList) :=
  have hshape : AcceptedShape "foo.bar[1].baz".toList :=
    ((parse_json_paths_accepts_only "foo.bar[1].baz".toList).1
      [KeyOrIndex.key "foo".toList, KeyOrIndex.key "bar".toList,
        KeyOrIndex.index 1, KeyOrIndex.key "baz".toList] (by decide)).2
  ⟨by decide, hshape,
    (parse_json_paths_accepts_only "foo.bar[1].baz".toList).2 (by decide) hshape,
    fun h => absurd h.2.2 (by decide), ⟨Fault.syntaxError, by decide⟩,
    fun h => absurd h.2.2 (by decide), ⟨Fault.syntaxError, by decide⟩,
    fun h => absurd h.2.2 (by decide), ⟨Fault.syntaxError, by decide⟩⟩

/-! ## Which segments are indices -/

theorem view_flush_mem (size : Nat) (pending : List Char) (out out1 : List KeyOrIndex)
    (x : KeyOrIndex) (h : view_flush size pending out = Except.ok out1) (hx : x ∈ out) :
    x ∈ out1 := by
  rcases view_flush_ok size pending out out1 h with ⟨_, h1⟩ | ⟨_, _, h1⟩
  · rw [h1]; exact hx
  · rw [h1]; exact List.mem_append_left _ hx

/-- The loop never removes a segment it has stored. -/
theorem view_loop_mem (size : Nat) (x : KeyOrIndex) (rest : List Char) (v v1 : View)
    (h : view_loop size rest v = Except.ok v1) (hx : x ∈ v.out) : x ∈ v1.out := by
  refine view_loop_induct size (fun v => x ∈ v.out) ?_ rest v v1 hx h
  intro c v v1 hp hs
  rcases view_step_ok size c v v1 hs with ⟨_, _, _, _, hf⟩ | ⟨_, _, _, _, hf⟩ |
    ⟨_, _, _, _, n, _, he⟩ | ⟨_, _, _, _, _, ho⟩
  · exact view_flush_mem size _ _ _ x hf hp
  · exact view_flush_mem size _ _ _ x hf hp
  · rw [(emit_ok size _ _ _ he).2]
    exact List.mem_append_left _ hp
  · rw [ho]; exact hp

/-- Right after a delimiter, or before any character, nothing is pending. -/
theorem view_loop_pending_nil (size : Nat) (pre : List Char) (v : View)
    (h : view_loop size pre view_init = Except.ok v)
    (hpre : pre = [] ∨ ∃ p c, pre = p ++ [c] ∧ is_delimiter c = true) :
    v.pending = [] := by
  rcases hpre with hpre | ⟨p, c, hpre, hc⟩
  · subst hpre
    simp only [view_loop, Except.ok.injEq] at h
    rw [← h]
    rfl
  · subst hpre
    obtain ⟨v0, v1, _, hstep, hlast⟩ := view_loop_split size p [] c view_init v h
    simp only [view_loop, Except.ok.injEq] at hlast
    subst hlast
    rcases view_step_ok size c v0 v1 hstep with ⟨_, _, hp, _⟩ | ⟨_, _, hp, _⟩ |
      ⟨_, _, hp, _⟩ | ⟨h1, h2, h3, _⟩
    · exact hp
    · exact hp
    · exact hp
    · rw [is_delimiter_false c h1 h2 h3] at hc
      exact absurd hc (by decide)

/-- A run that stands between delimiters and that no bracket closes is stored as a
key. -/
theorem unbracketed_run_key (text pre run post : List Char) (r : List KeyOrIndex)
    (h : parse_json_paths text = Except.ok r) (ht : text = pre ++ run ++ post)
    (hrun : is_segment run) (hu : unbracketed_at pre post) :
    KeyOrIndex.key run ∈ r := by
  obtain ⟨vf, hloop, hflush, _⟩ := parse_ok_loop text r h
  generalize count_json_paths text = size at hloop hflush
  rw [ht, List.append_assoc, view_loop_append] at hloop
  cases hv0 : view_loop size pre view_init with
  | error e => simp [hv0] at hloop
  | ok v0 =>
    simp only [hv0] at hloop
    have hp0 := view_loop_pending_nil _ pre v0 hv0 hu.1
    rw [view_loop_run _ post run v0 hrun.2, hp0, List.nil_append] at hloop
    rcases hu.2 with hpost | ⟨c, q, hpost, hc⟩
    · subst hpost
      simp only [view_loop, Except.ok.injEq] at hloop
      subst hloop
      rcases view_flush_ok _ _ _ _ hflush with ⟨hq, _⟩ | ⟨_, _, hr⟩
      · exact absurd hq hrun.1
      · rw [hr]
        simp
    · subst hpost
      simp only [view_loop] at hloop
      cases hs : view_step size c
          { pending := run, is_array := v0.is_array, out := v0.out } with
      | error e => simp [hs] at hloop
      | ok v2 =>
        simp only [hs] at hloop
        have hmem : KeyOrIndex.key run ∈ v2.out := by
          rcases view_step_ok _ c _ v2 hs with ⟨_, _, _, _, hf⟩ | ⟨_, _, _, _, hf⟩ |
            ⟨hc3, _⟩ | ⟨h1, h2, _⟩
          · rcases view_flush_ok _ _ _ _ hf with ⟨hq, _⟩ | ⟨_, _, hr⟩
            · exact absurd hq hrun.1
            · rw [hr]; simp
          · rcases view_flush_ok _ _ _ _ hf with ⟨hq, _⟩ | ⟨_, _, hr⟩
            · exact absurd hq hrun.1
            · rw [hr]; simp
          · rcases hc with hc | hc <;> rw [hc] at hc3 <;> exact absurd hc3 (by decide)
          · rcases hc with hc | hc
            · exact absurd hc h1
            · exact absurd hc h2
        exact view_flush_mem _ _ _ _ _ hflush (view_loop_mem _ _ q v2 vf hloop hmem)

/-- C11: when `parse_json_paths` succeeds, on whatever text, the number of `Index`
segments of the result is the number of `']'` characters of the text; the segment at
each position is an `Index` exactly when the run of the text at that position is one
that a `']'` closed; and every run of characters other than delimiters (digits
included) that stands between delimiters and that no `']'` closes is emitted as a
`Key`; on a text of the grammar this is every segment written after a `'.'`. -/
theorem parse_json_paths_index_iff_bracket :
    (∀ (text : List Char) (r : List KeyOrIndex), parse_json_paths text = Except.ok r →
      index_count r = text.count ']') ∧
    (∀ (text : List Char) (r : List KeyOrIndex), parse_json_paths text = Except.ok r →
      r.map holds_index = (segment_runs [] text).map Prod.fst) ∧
    (∀ (text pre run post : List Char) (r : List KeyOrIndex),
      parse_json_paths text = Except.ok r → text = pre ++ run ++ post →
      is_segment run → unbracketed_at pre post → KeyOrIndex.key run ∈ r) ∧
    (∀ (s0 : List Char) (items : List PathItem), is_segment s0 →
      (∀ it ∈ items, it.wf ∧ it.in_range) →
      ∃ r, parse_json_paths (s0 ++ items_text items) = Except.ok r ∧
        r.head? = some (KeyOrIndex.key s0) ∧
        ∀ d, is_digits d → PathItem.dot d ∈ items → KeyOrIndex.key d ∈ r) := by
  refine ⟨?_, ?_, ?_, ?_⟩
  · intro text r h
    obtain ⟨v, hloop, hflush, _⟩ := parse_ok_loop text r h
    rw [view_flush_index_count _ _ _ _ hflush]
    exact view_loop_index_count _ text v hloop
  · intro text r h
    rw [parse_ok_runs text r h, List.map_map]
    apply List.map_congr_left
    rintro ⟨b, run⟩ _
    cases b <;> rfl
  · intro text pre run post r h ht hrun hu
    exact unbracketed_run_key text pre run post r h ht hrun hu
  · intro s0 items h0 hw
    refine ⟨_, parse_path_segments s0 items h0 hw, by simp, ?_⟩
    intro d _ hd
    exact List.mem_cons_of_mem _ (List.mem_map.mpr ⟨PathItem.dot d, hd, rfl⟩)

/-- C11 at `"foo.1st.2[0]"` (one `']'`, one `Index`, and the run `2` a `Key`), and at
the texts `"[1]2"`, `"7[1"` and `"foo.2[18446744073709551616]"` outside the grammar
or its range, where the runs `2`, `1` and `2`, which no `']'` closes, are keys. -/
theorem parse_json_paths_index_iff_bracket_witness :
    parse_json_paths "foo.1st.2[0]".toList =
        Except.ok [KeyOrIndex.key "foo".toList, KeyOrIndex.key "1st".toList,
          KeyOrIndex.key "2".toList, KeyOrIndex.index 0] ∧
      index_count [KeyOrIndex.key "foo".toList, KeyOrIndex.key "1st".toList,
          KeyOrIndex.key "2".toList, KeyOrIndex.index 0] = "foo.1st.2[0]".toList.count ']' ∧
      [false, false, false, true] = (segment_runs [] "foo.1st.2[0]".toList).map Prod.fst ∧
      parse_json_paths "[1]2".toList =
        Except.ok [KeyOrIndex.index 1, KeyOrIndex.key "2".toList] ∧
      KeyOrIndex.key "2".toList ∈ [KeyOrIndex.index 1, KeyOrIndex.key "2".toList] ∧
      parse_json_paths "7[1".toList =
        Except.ok [KeyOrIndex.key "7".toList, KeyOrIndex.key "1".toList] ∧
      KeyOrIndex.key "1".toList ∈ [KeyOrIndex.key "7".toList, KeyOrIndex.key "1".toList] ∧
      parse_json_paths "foo.2[18446744073709551616]".toList =
        Except.ok [KeyOrIndex.key "foo".toList, KeyOrIndex.key "2".toList,
          KeyOrIndex.index 0] ∧
      KeyOrIndex.key "2".toList ∈ [KeyOrIndex.key "foo".toList, KeyOrIndex.key "2".toList,
          KeyOrIndex.index 0] :=
  ⟨by decide,
    parse_json_paths_index_iff_bracket.1 "foo.1st.2[0]".toList _ (by decide),
    parse_json_paths_index_iff_bracket.2.1 "foo.1st.2[0]".toList
      [KeyOrIndex.key "foo".toList, KeyOrIndex.key "1st".toList,
        KeyOrIndex.key "2".toList, KeyOrIndex.index 0] (by decide),
    by decide,
    parse_json_paths_index_iff_bracket.2.2.1 "[1]2".toList "[1]".toList "2".toList []
      [KeyOrIndex.index 1, KeyOrIndex.key "2".toList] (by decide) (by decide)
      (by unfold is_segment; decide)
      ⟨Or.inr ⟨"[1".toList, ']', by decide, by decide⟩, Or.inl rfl⟩,
    by decide,
    parse_json_paths_index_iff_bracket.2.2.1 "7[1".toList "7[".toList "1".toList []
      [KeyOrIndex.key "7".toList, KeyOrIndex.key "1".toList] (by decide) (by decide)
      (by unfold is_segment; decide)
      ⟨Or.inr ⟨"7".toList, '[', by decide, by decide⟩, Or.inl rfl⟩,
    by decide,
    parse_json_paths_index_iff_bracket.2.2.1 "foo.2[18446744073709551616]".toList
      "foo.".toList "2".toList "[18446744073709551616]".toList
      [KeyOrIndex.key "foo".toList, KeyOrIndex.key "2".toList, KeyOrIndex.index 0]
      (by decide) (by decide) (by unfold is_segment; decide)
      ⟨Or.inr ⟨"foo".toList, '.', by decide, by decide⟩,
        Or.inr ⟨'[', "18446744073709551616]".toList, by decide, Or.inr rfl⟩⟩⟩

end JsonQuery
